import Mathlib

/-!
Verification of `queue.c`

A shallow embedding of the linked-list queue of `src/queue.c` and the proofs of its
specified properties.

Memory is modelled explicitly.  A pointer to a list element is `Option Addr`
(`none` is `NULL`), the heap maps an address to the element stored there
(`none` when nothing is allocated at that address), and every C function
becomes a function from the memory before the call to the memory after it.
A run that dereferences `NULL` or a freed element, or writes outside a buffer,
has undefined behaviour in C; the model yields an explicit `Fault` instead.
The loops (`while`) and the recursion of `merge_sort` take a fuel argument,
since on a cyclic chain the C code does not terminate.
-/

namespace Queue

/-! ## Faults -/

/-- Reasons for which a run of the model stops without a result. -/
inductive Fault where
  /-- Dereferencing `NULL` or an address that holds no element. -/
  | invalid_deref
  /-- Writing outside the bounds of a character buffer. -/
  | out_of_bounds
  /-- The fuel given to a loop or to the recursion ran out. -/
  | out_of_fuel
  deriving DecidableEq, Repr

/-! ## C strings -/

/-- Bytes found at a `char *`.  The string they denote ends before the first
zero byte, or at the end of the list when there is none. -/
abbrev Bytes := List Nat

/-- The C string denoted by some bytes: everything before the first `'\0'`. -/
def cstr (s : Bytes) : Bytes := s.takeWhile (fun b => b != 0)

/-- Library function `strlen`. -/
def strlen (s : Bytes) : Nat := (cstr s).length

/-- Library function `strcmp`: negative, zero or positive as the first string is
smaller than, equal to or greater than the second one, comparing byte by byte up to
the terminator. -/
def strcmp : Bytes → Bytes → Int
  | [], [] => 0
  | [], b :: _ => -(b : Int)
  | a :: _, [] => (a : Int)
  | a :: as, b :: bs =>
    if a = b then (if a = 0 then 0 else strcmp as bs) else (a : Int) - (b : Int)

/-- Library function `strncpy(dst, src, n)`: writes exactly `n` bytes at the start of
`dst`, namely the string `src` cut to `n` bytes and padded with zero bytes. Writing
past the end of `dst` is a fault. -/
def strncpy (dst : Bytes) (src : Bytes) (n : Nat) : Except Fault Bytes :=
  if n ≤ dst.length then
    .ok ((cstr src).take n ++ List.replicate (n - strlen src) 0 ++ dst.drop n)
  else .error .out_of_bounds

/-- The assignment `buf[i] = c`. -/
def store_byte (buf : Bytes) (i : Nat) (c : Nat) : Except Fault Bytes :=
  if i < buf.length then .ok (buf.set i c) else .error .out_of_bounds

/-- One more than `SIZE_MAX`: `size_t` is taken to be 64 bits wide. -/
def SIZE_MOD : Nat := 2 ^ 64

/-- Subtraction of `size_t` values, which wraps around. -/
def size_sub (a b : Nat) : Nat := (a + SIZE_MOD - b % SIZE_MOD) % SIZE_MOD

/-! ## The type `int` -/

/-- Largest value of an `int`, taken to be 32 bits wide. -/
def INT_MAX : Int := 2147483647

/-- The `int` that the compiled code stores for the mathematical result `x` of `++` or
`--`: the value wraps around modulo `2 ^ 32` (the C standard leaves signed overflow
undefined). -/
def int_wrap (x : Int) : Int := (x + 2147483648) % 4294967296 - 2147483648

/-! ## Memory -/

/-- Address of a list element; a pointer is `Option Addr`, with `none` for `NULL`. -/
abbrev Addr := Nat

/-- A possibly null pointer to a list element. -/
abbrev Ptr := Option Addr

/-- Linked list element (`list_ele_t` of `queue.h`): the bytes its `value` points to and
the `next` pointer. -/
structure list_ele_t where
  value : Bytes
  next : Ptr
  deriving DecidableEq, Repr

/-- The allocated list elements. -/
abbrev Heap := Addr → Option list_ele_t

/-- Queue structure (`queue_t` of `queue.h`). The element count is an `int`: the field
holds an integer and the operations `q->size++` and `q->size--` keep it in the range of
`int` with `int_wrap`. -/
structure queue_t where
  head : Ptr
  tail : Ptr
  size : Int
  deriving DecidableEq, Repr

/-- Reading through a pointer: `*p`. -/
def deref (h : Heap) : Ptr → Except Fault list_ele_t
  | none => .error .invalid_deref
  | some a =>
    match h a with
    | none => .error .invalid_deref
    | some e => .ok e

/-- The assignment `p->next = v`. -/
def set_next (h : Heap) (p : Ptr) (v : Ptr) : Except Fault Heap :=
  match p with
  | none => .error .invalid_deref
  | some a =>
    match h a with
    | none => .error .invalid_deref
    | some e => .ok (Function.update h a (some { e with next := v }))

/-- Library function `free` on a list element. -/
def free (h : Heap) (a : Addr) : Heap := Function.update h a none

/-! ## The queue operations -/

/-- What a call leaves behind: the heap, the queue structure (`none` when the queue
pointer is `NULL`) and the value returned. -/
structure Outcome (α : Type) where
  heap : Heap
  q : Option queue_t
  ret : α

/-- What `q_remove_head` leaves behind: as `Outcome`, with the caller's buffer. -/
structure Removal where
  heap : Heap
  q : Option queue_t
  sp : Option Bytes
  ret : Bool

/-- Function `q_new`. The argument tells whether `malloc` succeeds. -/
def q_new (malloc_ok : Bool) : Option queue_t :=
  if malloc_ok then some { head := none, tail := none, size := 0 } else none

/-- Function `q_size`. -/
def q_size (q : Option queue_t) : Int :=
  match q with
  | none => 0
  | some qs => if qs.size = 0 then 0 else qs.size

/-- Function `q_insert_head`. `newh` is what `malloc` returns for the element (`none` when
it fails, otherwise an address at which nothing is allocated) and `value_ok` tells
whether the `malloc` for the string succeeds. -/
def q_insert_head (h : Heap) (q : Option queue_t) (s : Bytes) (newh : Ptr)
    (value_ok : Bool) : Except Fault (Outcome Bool) :=
  match q with
  | none => .ok ⟨h, none, false⟩
  | some qs =>
    match newh with
    | none => .ok ⟨h, some qs, false⟩
    | some a =>
      let h1 := Function.update h a (some { value := [], next := none })
      if value_ok = false then .ok ⟨free h1 a, some qs, false⟩
      else do
        let v ← strncpy (List.replicate (strlen s + 1) 0) s (strlen s + 1)
        let h2 := Function.update h1 a (some { value := v, next := qs.head })
        let q1 := { qs with head := some a }
        let q2 := if q_size (some q1) = 0 then { q1 with tail := some a } else q1
        .ok ⟨h2, some { q2 with size := int_wrap (q2.size + 1) }, true⟩

/-- Function `q_insert_tail`, with the results of `malloc` as for `q_insert_head`. -/
def q_insert_tail (h : Heap) (q : Option queue_t) (s : Bytes) (newt : Ptr)
    (value_ok : Bool) : Except Fault (Outcome Bool) :=
  match q with
  | none => .ok ⟨h, none, false⟩
  | some qs =>
    match newt with
    | none => .ok ⟨h, some qs, false⟩
    | some a =>
      let h1 := Function.update h a (some { value := [], next := none })
      if value_ok = false then .ok ⟨free h1 a, some qs, false⟩
      else do
        let v ← strncpy (List.replicate (strlen s + 1) 0) s (strlen s + 1)
        let h2 := Function.update h1 a (some { value := v, next := none })
        if q_size (some qs) = 0 then
          .ok ⟨h2, some { head := some a, tail := some a, size := int_wrap (qs.size + 1) }, true⟩
        else do
          let h3 ← set_next h2 qs.tail (some a)
          .ok ⟨h3, some { qs with tail := some a, size := int_wrap (qs.size + 1) }, true⟩

/-- Function `q_remove_head`. `sp` is the caller's buffer (`none` for `NULL`), with
the bytes it really holds; `bufsize` is the capacity passed along. -/
def q_remove_head (h : Heap) (q : Option queue_t) (sp : Option Bytes) (bufsize : Nat) :
    Except Fault Removal :=
  match q with
  | none => .ok ⟨h, none, sp, false⟩
  | some qs =>
    if q_size (some qs) = 0 then .ok ⟨h, some qs, sp, false⟩
    else
      match qs.head with
      | none => .error .invalid_deref
      | some a =>
        match h a with
        | none => .error .invalid_deref
        | some e =>
          let newh := e.next
          match sp with
          | none =>
            .ok ⟨free h a, some { qs with head := newh, size := int_wrap (qs.size - 1) }, none,
              true⟩
          | some buf => do
            let b1 ← strncpy buf e.value (size_sub bufsize 1)
            let b2 ← store_byte b1 (size_sub bufsize 1) 0
            .ok ⟨free h a, some { qs with head := newh, size := int_wrap (qs.size - 1) },
              some b2, true⟩

/-- The `while (1)` loop of `q_reverse`; returns the heap and the final `cur`. -/
def reverse_loop : Nat → Heap → Ptr → Ptr → Ptr → Except Fault (Heap × Ptr)
  | 0, _, _, _, _ => .error .out_of_fuel
  | fuel + 1, h, pre, cur, pos => do
    let h1 ← set_next h cur pre
    match pos with
    | none => .ok (h1, cur)
    | some p => do
      let e ← deref h1 (some p)
      reverse_loop fuel h1 cur (some p) e.next

/-- Function `q_reverse`. -/
def q_reverse (fuel : Nat) (h : Heap) (q : Option queue_t) : Except Fault (Outcome Unit) :=
  match q with
  | none => .ok ⟨h, none, ()⟩
  | some qs =>
    if q_size (some qs) = 0 ∨ q_size (some qs) = 1 then .ok ⟨h, some qs, ()⟩
    else do
      let pre := qs.head
      let e0 ← deref h pre
      let cur := e0.next
      let e1 ← deref h cur
      let pos := e1.next
      let (h1, cur1) ← reverse_loop fuel h pre cur pos
      let q1 := { qs with tail := qs.head }
      let h2 ← set_next h1 q1.tail none
      .ok ⟨h2, some { q1 with head := cur1 }, ()⟩

/-- The `while (fast)` loop of `split_queue`; returns the final `slow`. -/
def split_loop : Nat → Heap → Ptr → Ptr → Except Fault Ptr
  | 0, _, _, _ => .error .out_of_fuel
  | fuel + 1, h, fast, slow =>
    match fast with
    | none => .ok slow
    | some f => do
      let e ← deref h (some f)
      match e.next with
      | none => split_loop fuel h none slow
      | some f1 => do
        let e1 ← deref h (some f1)
        let es ← deref h slow
        split_loop fuel h e1.next es.next

/-- Function `split_queue`; returns the heap with `*front` and `*back`. -/
def split_queue (fuel : Nat) (h : Heap) (q_head : Ptr) : Except Fault (Heap × Ptr × Ptr) := do
  let e ← deref h q_head
  let slow ← split_loop fuel h e.next q_head
  let es ← deref h slow
  let h1 ← set_next h slow none
  .ok (h1, q_head, es.next)

/-- The `while (1)` loop of `merge`. -/
def merge_loop : Nat → Heap → Ptr → Ptr → Ptr → Except Fault Heap
  | 0, _, _, _, _ => .error .out_of_fuel
  | fuel + 1, h, a, b, current =>
    match a with
    | none => set_next h current b
    | some x =>
      match b with
      | none => set_next h current (some x)
      | some y => do
        let ea ← deref h (some x)
        let eb ← deref h (some y)
        if strcmp ea.value eb.value < 0 then do
          let h1 ← set_next h current (some x)
          let ea1 ← deref h1 (some x)
          let ec ← deref h1 current
          merge_loop fuel h1 ea1.next (some y) ec.next
        else do
          let h1 ← set_next h current (some y)
          let eb1 ← deref h1 (some y)
          let ec ← deref h1 current
          merge_loop fuel h1 (some x) eb1.next ec.next

/-- Function `merge`; returns the heap and the head of the merged chain. -/
def merge (fuel : Nat) (h : Heap) (a b : Ptr) : Except Fault (Heap × Ptr) :=
  match a with
  | none => .ok (h, b)
  | some x =>
    match b with
    | none => .ok (h, some x)
    | some y => do
      let ea ← deref h (some x)
      let eb ← deref h (some y)
      if strcmp ea.value eb.value < 0 then do
        let h1 ← merge_loop fuel h ea.next (some y) (some x)
        .ok (h1, some x)
      else do
        let h1 ← merge_loop fuel h (some x) eb.next (some y)
        .ok (h1, some y)

/-- Function `merge_sort`; takes `*q_head` and returns the heap with the new `*q_head`. -/
def merge_sort : Nat → Heap → Ptr → Except Fault (Heap × Ptr)
  | 0, _, _ => .error .out_of_fuel
  | fuel + 1, h, head =>
    match head with
    | none => .ok (h, none)
    | some a => do
      let e ← deref h (some a)
      match e.next with
      | none => .ok (h, some a)
      | some _ => do
        let (h1, front, back) ← split_queue fuel h (some a)
        let (h2, front1) ← merge_sort fuel h1 front
        let (h3, back1) ← merge_sort fuel h2 back
        merge fuel h3 front1 back1

/-- Function `q_sort`. -/
def q_sort (fuel : Nat) (h : Heap) (q : Option queue_t) : Except Fault (Outcome Unit) :=
  match q with
  | none => .ok ⟨h, none, ()⟩
  | some qs =>
    if q_size (some qs) = 0 ∨ q_size (some qs) = 1 then .ok ⟨h, some qs, ()⟩
    else do
      let (h1, head1) ← merge_sort fuel h qs.head
      .ok ⟨h1, some { qs with head := head1 }, ()⟩

/-- The loop `while (q_remove_head(q, NULL, 0))` of `q_free`. -/
def q_free_loop : Nat → Heap → Option queue_t → Except Fault (Heap × Option queue_t)
  | 0, _, _ => .error .out_of_fuel
  | fuel + 1, h, q => do
    let r ← q_remove_head h q none 0
    if r.ret then q_free_loop fuel r.heap r.q else .ok (r.heap, r.q)

/-- Function `q_free`: the heap of list elements once the queue is drained and its
structure released; nothing happens when the queue pointer is `NULL`. -/
def q_free (fuel : Nat) (h : Heap) (q : Option queue_t) : Except Fault Heap :=
  match q with
  | none => .ok h
  | some qs => do
    let r ← q_free_loop fuel h (some qs)
    .ok r.1

/-! ## Reading a queue -/

/-- The addresses met by following `next` from `p`, at most `fuel` of them. -/
def walk : Nat → Heap → Ptr → List Addr
  | 0, _, _ => []
  | _ + 1, _, none => []
  | fuel + 1, h, some a =>
    match h a with
    | none => [a]
    | some e => a :: walk fuel h e.next

/-- The string held by the element at `a` (empty when nothing is allocated there). -/
def value_at (h : Heap) (a : Addr) : Bytes :=
  match h a with
  | none => []
  | some e => cstr e.value

/-- A small heap of three elements holding "b", "a" and "c", linked in this order. -/
def heap_bac : Heap := fun a =>
  if a = 0 then some ⟨[98, 0], some 1⟩
  else if a = 1 then some ⟨[97, 0], some 2⟩
  else if a = 2 then some ⟨[99, 0], none⟩
  else none

/-! ## Chains of elements -/

/-- Following `next` from `p` visits exactly the addresses of `l`, in this order, all of
them allocated, and then arrives at the pointer `stop`. -/
def Seg (h : Heap) : Ptr → List Addr → Ptr → Prop
  | p, [], stop => p = stop
  | p, a :: l, stop => p = some a ∧ ∃ e, h a = some e ∧ Seg h e.next l stop

/-- The chain that starts at `p` is made of the elements at `l` and ends with `NULL`. -/
def Chain (h : Heap) (p : Ptr) (l : List Addr) : Prop := Seg h p l none

/-- The bytes of the value of the element at `a` (empty when nothing is allocated). -/
def raw_at (h : Heap) (a : Addr) : Bytes :=
  match h a with
  | none => []
  | some e => e.value

/-- Two heaps hold elements at the same addresses, with the same values; only `next`
pointers may differ. -/
def SameValues (h h' : Heap) : Prop :=
  ∀ x, Option.map list_ele_t.value (h' x) = Option.map list_ele_t.value (h x)

/-- Non-decreasing order of strings under `strcmp`. -/
def Sorted (vs : List Bytes) : Prop := vs.Pairwise (fun u v => strcmp u v ≤ 0)

/-- Merging two lists of addresses as `merge` does it, `k` giving the value of an element:
the head of the first list is taken only when it is strictly smaller. -/
def merge_list (k : Addr → Bytes) : List Addr → List Addr → List Addr
  | [], lb => lb
  | x :: la, [] => x :: la
  | x :: la, y :: lb =>
    if strcmp (k x) (k y) < 0 then x :: merge_list k la (y :: lb)
    else y :: merge_list k (x :: la) lb

/-- The queue is linked as the code needs it: the chain from `head` is made of the
elements at `l`, the count is their number and, when there is an element, `tail` is
the last one. -/
def Linked (h : Heap) (q : queue_t) (l : List Addr) : Prop :=
  Chain h q.head l ∧ q.size = (l.length : Int) ∧ (l ≠ [] → q.tail = l.getLast?)

/-- Well-formed queue of the specification: linked, `tail` is `NULL` when the queue is
empty, and the count is a value of type `int`. -/
def WellFormed (h : Heap) (q : queue_t) (l : List Addr) : Prop :=
  Linked h q l ∧ (l = [] → q.tail = none) ∧ q.size ≤ INT_MAX

/-! ## Sequences of calls -/

/-- The caller's buffer, when there is one, has room for the capacity announced with it,
and this capacity is a `size_t` that is at least one. -/
def BufferOK (sp : Option Bytes) (bufsize : Nat) : Prop :=
  match sp with
  | none => True
  | some buf => 1 ≤ bufsize ∧ bufsize ≤ buf.length ∧ bufsize < SIZE_MOD

/-- What `malloc` may return: `NULL`, or an address at which nothing is allocated. -/
def Fresh (h : Heap) (p : Ptr) : Prop :=
  match p with
  | none => True
  | some a => h a = none

/-- A call of a public operation on the queue, with the results of the calls of `malloc`
it makes (see `q_insert_head`). -/
inductive Op where
  | insert_head (s : Bytes) (newh : Ptr) (value_ok : Bool)
  | insert_tail (s : Bytes) (newt : Ptr) (value_ok : Bool)
  | remove_head (sp : Option Bytes) (bufsize : Nat)
  | reverse
  | sort

/-- The arguments of the call respect the contract of the C library and of the caller:
`malloc` returns fresh addresses and the buffer has the capacity announced. -/
def Op.admissible (h : Heap) : Op → Prop
  | .insert_head _ newh _ => Fresh h newh
  | .insert_tail _ newt _ => Fresh h newt
  | .remove_head sp bufsize => BufferOK sp bufsize
  | .reverse => True
  | .sort => True

/-- The call is one of `q_insert_head`, `q_insert_tail` and `q_remove_head`. -/
def Op.basic : Op → Bool
  | .insert_head _ _ _ => true
  | .insert_tail _ _ _ => true
  | .remove_head _ _ => true
  | .reverse => false
  | .sort => false

/-- Runs one call; the value returned is `none` for the functions returning `void`. -/
def step (fuel : Nat) (h : Heap) (q : Option queue_t) : Op → Except Fault (Outcome (Option Bool))
  | .insert_head s newh value_ok => do
    let r ← q_insert_head h q s newh value_ok
    .ok ⟨r.heap, r.q, some r.ret⟩
  | .insert_tail s newt value_ok => do
    let r ← q_insert_tail h q s newt value_ok
    .ok ⟨r.heap, r.q, some r.ret⟩
  | .remove_head sp bufsize => do
    let r ← q_remove_head h q sp bufsize
    .ok ⟨r.heap, r.q, some r.ret⟩
  | .reverse => do
    let r ← q_reverse fuel h q
    .ok ⟨r.heap, r.q, none⟩
  | .sort => do
    let r ← q_sort fuel h q
    .ok ⟨r.heap, r.q, none⟩

/-- Runs a sequence of calls and collects the values returned. -/
def run (fuel : Nat) : Heap → Option queue_t → List Op →
    Except Fault (Outcome (List (Option Bool)))
  | h, q, [] => .ok ⟨h, q, []⟩
  | h, q, op :: ops => do
    let r ← step fuel h q op
    let r' ← run fuel r.heap r.q ops
    .ok ⟨r'.heap, r'.q, r.ret :: r'.ret⟩

/-- Every call of the sequence is admissible in the state in which it is made. -/
def Admissible (fuel : Nat) : Heap → Option queue_t → List Op → Prop
  | _, _, [] => True
  | h, q, op :: ops =>
    op.admissible h ∧
      match step fuel h q op with
      | .ok r => Admissible fuel r.heap r.q ops
      | .error _ => True

/-- Number of inserts of the sequence that returned `true`. -/
def successful_inserts : List Op → List (Option Bool) → Nat
  | .insert_head _ _ _ :: ops, some true :: rs => successful_inserts ops rs + 1
  | .insert_tail _ _ _ :: ops, some true :: rs => successful_inserts ops rs + 1
  | _ :: ops, _ :: rs => successful_inserts ops rs
  | _, _ => 0

/-- Number of removals of the sequence that returned `true`. -/
def successful_removals : List Op → List (Option Bool) → Nat
  | .remove_head _ _ :: ops, some true :: rs => successful_removals ops rs + 1
  | _ :: ops, _ :: rs => successful_removals ops rs
  | _, _ => 0

/-- Number of calls of `q_insert_head` and `q_insert_tail` in the sequence. -/
def insert_calls : List Op → Nat
  | [] => 0
  | .insert_head _ _ _ :: ops => insert_calls ops + 1
  | .insert_tail _ _ _ :: ops => insert_calls ops + 1
  | _ :: ops => insert_calls ops

/-- The sequence of `n` calls of `q_insert_head` that store "a" at the fresh addresses
`k`, `k + 1`, and so on, every `malloc` succeeding. -/
def many_inserts : Nat → Nat → List Op
  | _, 0 => []
  | k, n + 1 => .insert_head [97] (some k) true :: many_inserts (k + 1) n

/-- The heap in which nothing is allocated. -/
def empty_heap : Heap := fun _ => none

/-- The values of the queue from head to tail, following at most `fuel` links. -/
def queue_values (fuel : Nat) (h : Heap) (q : Option queue_t) : List Bytes :=
  match q with
  | none => []
  | some qs => (walk fuel h qs.head).map (value_at h)

/-- A heap with one element holding "a". -/
def heap_a : Heap := fun a =>
  if a = 0 then some ⟨[97, 0], none⟩ else none

/-- A heap with one element holding "hello". -/
def heap_hello : Heap := fun a =>
  if a = 0 then some ⟨[104, 101, 108, 108, 111, 0], none⟩ else none

/-- A heap with the chain "a", "c" at the addresses 0 and 1 and the chain "b" at the
address 2. -/
def heap_ac_b : Heap := fun a =>
  if a = 0 then some ⟨[97, 0], some 1⟩
  else if a = 1 then some ⟨[99, 0], none⟩
  else if a = 2 then some ⟨[98, 0], none⟩
  else none

/-- The fault with which a run stops, if it does. -/
def fault_of {α : Type} : Except Fault α → Option Fault
  | .ok _ => none
  | .error f => some f

/-! ## Facts about the library functions -/

theorem cstr_nil : cstr [] = [] := rfl

theorem cstr_cons (a : Nat) (s : Bytes) :
    cstr (a :: s) = if a = 0 then [] else a :: cstr s := by
  by_cases h : a = 0 <;> simp [cstr, List.takeWhile_cons, h]

theorem cstr_no_zero (s : Bytes) : ∀ b ∈ cstr s, b ≠ 0 := by
  induction s with
  | nil => simp [cstr_nil]
  | cons a s ih =>
    rw [cstr_cons]
    by_cases h : a = 0
    · simp [h]
    · simp only [h, if_false, List.mem_cons]
      rintro b (rfl | hb)
      · exact h
      · exact ih b hb

theorem cstr_of_no_zero (s : Bytes) (hs : ∀ b ∈ s, b ≠ 0) : cstr s = s := by
  induction s with
  | nil => rfl
  | cons a s ih =>
    rw [cstr_cons, if_neg (hs a (List.mem_cons_self _ _)),
      ih (fun b hb => hs b (List.mem_cons_of_mem _ hb))]

theorem cstr_append_zero (s t : Bytes) (hs : ∀ b ∈ s, b ≠ 0) : cstr (s ++ 0 :: t) = s := by
  induction s with
  | nil => simp [cstr_cons]
  | cons a s ih =>
    rw [List.cons_append, cstr_cons, if_neg (hs a (List.mem_cons_self _ _)),
      ih (fun b hb => hs b (List.mem_cons_of_mem _ hb))]

theorem cstr_idem (s : Bytes) : cstr (cstr s) = cstr s :=
  cstr_of_no_zero _ (cstr_no_zero s)

theorem strcmp_cstr_left (s t : Bytes) : strcmp (cstr s) t = strcmp s t := by
  induction s generalizing t with
  | nil => rfl
  | cons a s ih =>
    rw [cstr_cons]
    by_cases h : a = 0
    · subst h
      cases t with
      | nil => simp [strcmp]
      | cons b t =>
        by_cases hb : 0 = b
        · subst hb; simp [strcmp]
        · simp [strcmp, hb]
    · rw [if_neg h]
      cases t with
      | nil => simp [strcmp]
      | cons b t => simp [strcmp, ih]

theorem strcmp_cstr_right (s t : Bytes) : strcmp s (cstr t) = strcmp s t := by
  induction t generalizing s with
  | nil => rfl
  | cons b t ih =>
    rw [cstr_cons]
    by_cases h : b = 0
    · subst h
      cases s with
      | nil => simp [strcmp]
      | cons a s =>
        by_cases ha : a = 0
        · subst ha; simp [strcmp]
        · simp [strcmp, ha]
    · rw [if_neg h]
      cases s with
      | nil => simp [strcmp]
      | cons a s => simp [strcmp, ih]

theorem strcmp_trans (s t u : Bytes) (h1 : strcmp s t ≤ 0) (h2 : strcmp t u ≤ 0) :
    strcmp s u ≤ 0 := by
  induction s generalizing t u with
  | nil => cases u <;> simp [strcmp]
  | cons a s ih =>
    cases t with
    | nil =>
      cases u with
      | nil => simpa [strcmp] using h1
      | cons c u =>
        simp only [strcmp] at h1 ⊢
        split_ifs <;> omega
    | cons b t =>
      cases u with
      | nil =>
        simp only [strcmp] at h1 h2 ⊢
        split_ifs at h1 <;> omega
      | cons c u =>
        simp only [strcmp] at h1 h2 ⊢
        by_cases hab : a = b
        · by_cases hbc : b = c
          · subst hab; subst hbc
            by_cases h0 : a = 0
            · simp [h0]
            · simp only [if_true, if_neg h0] at h1 h2 ⊢
              exact ih t u h1 h2
          · subst hab
            simp only [if_neg hbc] at h2 ⊢
            exact h2
        · by_cases hbc : b = c
          · subst hbc
            simp only [if_neg hab] at h1 ⊢
            exact h1
          · simp only [if_neg hab] at h1
            simp only [if_neg hbc] at h2
            split_ifs <;> omega

theorem strcmp_total (s t : Bytes) (h : ¬ strcmp s t < 0) : strcmp t s ≤ 0 := by
  induction s generalizing t with
  | nil =>
    cases t with
    | nil => simp [strcmp]
    | cons b t => simp only [strcmp] at h ⊢; omega
  | cons a s ih =>
    cases t with
    | nil => simp [strcmp]
    | cons b t =>
      simp only [strcmp] at h ⊢
      by_cases hab : a = b
      · subst hab
        by_cases h0 : a = 0
        · simp [h0]
        · simp only [if_true, if_neg h0] at h ⊢
          exact ih t h
      · have hba : ¬ b = a := fun e => hab e.symm
        simp only [if_neg hab] at h
        simp only [if_neg hba]
        omega

/-! ## Facts about chains -/

theorem deref_some {h : Heap} {a : Addr} {e : list_ele_t} (he : h a = some e) :
    deref h (some a) = .ok e := by
  simp [deref, he]

theorem set_next_some {h : Heap} {a : Addr} {e : list_ele_t} (he : h a = some e) (v : Ptr) :
    set_next h (some a) v = .ok (Function.update h a (some { e with next := v })) := by
  simp [set_next, he]

theorem Seg.congr {h h' : Heap} {p : Ptr} {l : List Addr} {stop : Ptr}
    (hl : ∀ x ∈ l, h' x = h x) (hs : Seg h p l stop) : Seg h' p l stop := by
  induction l generalizing p with
  | nil => exact hs
  | cons a l ih =>
    obtain ⟨hp, e, he, ht⟩ := hs
    refine ⟨hp, e, ?_, ih (fun x hx => hl x (List.mem_cons_of_mem _ hx)) ht⟩
    rw [hl a (List.mem_cons_self _ _)]
    exact he

theorem Chain.congr_of_agree {h h' : Heap} {p : Ptr} {l : List Addr}
    (hl : ∀ x ∈ l, h' x = h x) (hs : Chain h p l) : Chain h' p l :=
  Seg.congr hl hs

theorem Chain.nil_iff {h : Heap} {p : Ptr} : Chain h p [] ↔ p = none := Iff.rfl

theorem Chain.cons_iff {h : Heap} {p : Ptr} {a : Addr} {l : List Addr} :
    Chain h p (a :: l) ↔ p = some a ∧ ∃ e, h a = some e ∧ Chain h e.next l := Iff.rfl

theorem Chain.of_none {h : Heap} {l : List Addr} (hc : Chain h none l) : l = [] := by
  cases l with
  | nil => rfl
  | cons a l => exact absurd hc.1 (by simp)

theorem Chain.of_some {h : Heap} {a : Addr} {l : List Addr} (hc : Chain h (some a) l) :
    ∃ e t, l = a :: t ∧ h a = some e ∧ Chain h e.next t := by
  cases l with
  | nil => exact absurd hc (by simp [Chain, Seg])
  | cons b t =>
    obtain ⟨hp, e, he, ht⟩ := hc
    have hab : a = b := Option.some.inj hp
    subst hab
    exact ⟨e, t, rfl, he, ht⟩

theorem Chain.unique {h : Heap} {p : Ptr} {l l' : List Addr}
    (h1 : Chain h p l) (h2 : Chain h p l') : l = l' := by
  induction l generalizing p l' with
  | nil =>
    have hp : p = none := h1
    subst hp
    exact (Chain.of_none h2).symm
  | cons a l ih =>
    obtain ⟨hp, e, he, ht⟩ := h1
    subst hp
    obtain ⟨e', t, hl', he', ht'⟩ := Chain.of_some h2
    subst hl'
    rw [he] at he'
    have hee : e = e' := Option.some.inj he'
    subst hee
    rw [ih ht ht']

theorem Seg.append {h : Heap} {p : Ptr} {l1 l2 : List Addr} {stop : Ptr} :
    Seg h p (l1 ++ l2) stop ↔ ∃ mid, Seg h p l1 mid ∧ Seg h mid l2 stop := by
  induction l1 generalizing p with
  | nil =>
    constructor
    · intro hs
      exact ⟨p, rfl, hs⟩
    · rintro ⟨mid, hm, hs⟩
      have hpm : p = mid := hm
      subst hpm
      exact hs
  | cons a l1 ih =>
    constructor
    · rintro ⟨hp, e, he, ht⟩
      obtain ⟨mid, hm, hs⟩ := ih.mp ht
      exact ⟨mid, ⟨hp, e, he, hm⟩, hs⟩
    · rintro ⟨mid, ⟨hp, e, he, hm⟩, hs⟩
      exact ⟨hp, e, he, ih.mpr ⟨mid, hm, hs⟩⟩

theorem Chain.nodup {h : Heap} {p : Ptr} {l : List Addr} (hc : Chain h p l) : l.Nodup := by
  induction l generalizing p with
  | nil => exact List.nodup_nil
  | cons a l ih =>
    obtain ⟨hp, e, he, ht⟩ := hc
    refine List.nodup_cons.mpr ⟨?_, ih ht⟩
    intro hmem
    obtain ⟨l1, l2, hl⟩ := List.append_of_mem hmem
    rw [hl] at ht
    obtain ⟨mid, _, hs⟩ := Seg.append.mp ht
    obtain ⟨_, e', he', ht'⟩ := hs
    rw [he] at he'
    have hee : e = e' := Option.some.inj he'
    subst hee
    have hh : l1 ++ a :: l2 = l2 := Chain.unique ht ht'
    have hlen := congrArg List.length hh
    simp at hlen
    omega

theorem SameValues.refl (h : Heap) : SameValues h h := fun _ => rfl

theorem SameValues.trans {h1 h2 h3 : Heap} (a : SameValues h1 h2) (b : SameValues h2 h3) :
    SameValues h1 h3 := fun x => (b x).trans (a x)

theorem SameValues.raw_eq {h h' : Heap} (hv : SameValues h h') : raw_at h' = raw_at h := by
  funext x
  have hx := hv x
  unfold raw_at
  cases h1 : h' x <;> cases h2 : h x <;> simp_all

theorem SameValues.value_eq {h h' : Heap} (hv : SameValues h h') :
    value_at h' = value_at h := by
  funext x
  have hx := hv x
  unfold value_at
  cases h1 : h' x <;> cases h2 : h x <;> simp_all

theorem SameValues.of_set_next {h : Heap} {a : Addr} {e : list_ele_t} (he : h a = some e)
    (v : Ptr) : SameValues h (Function.update h a (some { e with next := v })) := by
  intro x
  by_cases hx : x = a
  · subst hx; simp [he]
  · simp [Function.update_noteq hx]

theorem value_at_eq_cstr_raw (h : Heap) (a : Addr) : value_at h a = cstr (raw_at h a) := by
  unfold value_at raw_at
  cases h a <;> rfl

/-! ## Facts about merging lists -/

theorem merge_list_nil_right (k : Addr → Bytes) (la : List Addr) : merge_list k la [] = la := by
  cases la <;> simp [merge_list]

theorem merge_list_perm (k : Addr → Bytes) (la lb : List Addr) :
    (merge_list k la lb).Perm (la ++ lb) := by
  induction la generalizing lb with
  | nil => simp [merge_list]
  | cons x la iha =>
    induction lb with
    | nil => simp [merge_list]
    | cons y lb ihb =>
      simp only [merge_list]
      split_ifs
      · exact (iha (y :: lb)).cons x
      · refine (ihb.cons y).trans ?_
        exact (List.perm_middle : ((x :: la) ++ y :: lb).Perm (y :: ((x :: la) ++ lb))).symm

theorem merge_list_mem (k : Addr → Bytes) (la lb : List Addr) (z : Addr) :
    z ∈ merge_list k la lb ↔ z ∈ la ∨ z ∈ lb := by
  rw [(merge_list_perm k la lb).mem_iff, List.mem_append]

theorem merge_list_sorted (k : Addr → Bytes) (la lb : List Addr)
    (ha : Sorted (la.map k)) (hb : Sorted (lb.map k)) :
    Sorted ((merge_list k la lb).map k) := by
  induction la generalizing lb with
  | nil => simpa [merge_list] using hb
  | cons x la iha =>
    induction lb with
    | nil => simpa [merge_list] using ha
    | cons y lb ihb =>
      unfold Sorted at ha hb
      rw [List.map_cons, List.pairwise_cons] at ha hb
      simp only [merge_list]
      split_ifs with hlt
      · unfold Sorted
        rw [List.map_cons, List.pairwise_cons]
        refine ⟨?_, iha (y :: lb) ha.2 (by unfold Sorted; rw [List.map_cons, List.pairwise_cons]; exact hb)⟩
        intro v hv
        obtain ⟨z, hz, rfl⟩ := List.mem_map.mp hv
        rcases (merge_list_mem k la (y :: lb) z).mp hz with hz | hz
        · exact ha.1 _ (List.mem_map_of_mem k hz)
        · have hxy : strcmp (k x) (k y) ≤ 0 := le_of_lt hlt
          rcases List.mem_cons.mp hz with rfl | hz
          · exact hxy
          · exact strcmp_trans _ _ _ hxy (hb.1 _ (List.mem_map_of_mem k hz))
      · unfold Sorted
        rw [List.map_cons, List.pairwise_cons]
        refine ⟨?_, ihb hb.2⟩
        intro v hv
        obtain ⟨z, hz, rfl⟩ := List.mem_map.mp hv
        have hyx : strcmp (k y) (k x) ≤ 0 := strcmp_total _ _ hlt
        rcases (merge_list_mem k (x :: la) lb z).mp hz with hz | hz
        · rcases List.mem_cons.mp hz with rfl | hz
          · exact hyx
          · exact strcmp_trans _ _ _ hyx (ha.1 _ (List.mem_map_of_mem k hz))
        · exact hb.1 _ (List.mem_map_of_mem k hz)

/-! ## The merge of two chains -/

theorem raw_at_of_some {h : Heap} {a : Addr} {e : list_ele_t} (he : h a = some e) :
    raw_at h a = e.value := by
  simp [raw_at, he]

theorem Seg.update_of_not_mem {h : Heap} {p : Ptr} {l : List Addr} {stop : Ptr} {c : Addr}
    (v : Option list_ele_t) (hc : c ∉ l) (hs : Seg h p l stop) :
    Seg (Function.update h c v) p l stop :=
  Seg.congr (fun x hx => Function.update_noteq (fun (e : x = c) => hc (e ▸ hx)) _ _) hs

theorem Chain.update_other {h : Heap} {p : Ptr} {l : List Addr} {c : Addr}
    (v : Option list_ele_t) (hc : c ∉ l) (hs : Chain h p l) :
    Chain (Function.update h c v) p l :=
  Seg.update_of_not_mem v hc hs

theorem ne_of_not_mem_cons {c x : Addr} {l : List Addr} (hc : c ∉ x :: l) : x ≠ c :=
  fun e => hc (e ▸ List.mem_cons_self _ _)

theorem merge_loop_spec (fuel : Nat) : ∀ (h : Heap) (la lb : List Addr) (a b : Ptr) (c : Addr)
    (ec : list_ele_t), Chain h a la → Chain h b lb → h c = some ec → c ∉ la → c ∉ lb →
    (∀ x ∈ la, x ∉ lb) → la.length + lb.length < fuel →
    ∃ h', merge_loop fuel h a b (some c) = .ok h' ∧
      Chain h' (some c) (c :: merge_list (raw_at h) la lb) ∧
      (∀ x, x ≠ c → x ∉ la → x ∉ lb → h' x = h x) ∧ SameValues h h' := by
  induction fuel with
  | zero => intro h la lb a b c ec _ _ _ _ _ _ hlen; omega
  | succ fuel ih =>
    intro h la lb a b c ec ha hb hc hca hcb hdisj hlen
    cases a with
    | none =>
      have hla := Chain.of_none ha
      subst hla
      refine ⟨Function.update h c (some { ec with next := b }), ?_, ?_, ?_, ?_⟩
      · simp [merge_loop, set_next_some hc]
      · refine ⟨rfl, _, Function.update_same _ _ _, ?_⟩
        simp only [merge_list]
        exact Chain.update_other _ hcb hb
      · intro x hx _ _
        exact Function.update_noteq hx _ _
      · exact SameValues.of_set_next hc b
    | some x =>
      obtain ⟨ex, la', hla, hx, hta⟩ := Chain.of_some ha
      subst hla
      cases b with
      | none =>
        have hlb := Chain.of_none hb
        subst hlb
        refine ⟨Function.update h c (some { ec with next := some x }), ?_, ?_, ?_, ?_⟩
        · simp [merge_loop, set_next_some hc]
        · refine ⟨rfl, _, Function.update_same _ _ _, ?_⟩
          simp only [merge_list]
          exact Chain.update_other _ hca ha
        · intro z hz _ _
          exact Function.update_noteq hz _ _
        · exact SameValues.of_set_next hc (some x)
      | some y =>
        obtain ⟨ey, lb', hlb, hy, htb⟩ := Chain.of_some hb
        subst hlb
        have hcx : x ≠ c := ne_of_not_mem_cons hca
        have hcy : y ≠ c := ne_of_not_mem_cons hcb
        have hca' : c ∉ la' := fun hm => hca (List.mem_cons_of_mem _ hm)
        have hcb' : c ∉ lb' := fun hm => hcb (List.mem_cons_of_mem _ hm)
        have hnda := Chain.nodup ha
        have hndb := Chain.nodup hb
        by_cases hlt : strcmp ex.value ey.value < 0
        · obtain ⟨h1, h1def⟩ : ∃ h1 : Heap,
              h1 = Function.update h c (some { ec with next := some x }) := ⟨_, rfl⟩
          have hset : set_next h (some c) (some x) = .ok h1 := by
            rw [h1def]; exact set_next_some hc _
          have hsv1 : SameValues h h1 := by rw [h1def]; exact SameValues.of_set_next hc (some x)
          have h1x : h1 x = some ex := by
            rw [h1def, Function.update_noteq hcx]; exact hx
          have h1c : h1 c = some { ec with next := some x } := by
            rw [h1def]; exact Function.update_same _ _ _
          have hta1 : Chain h1 ex.next la' := by
            rw [h1def]; exact Chain.update_other _ hca' hta
          have hb1 : Chain h1 (some y) (y :: lb') := by
            rw [h1def]; exact Chain.update_other _ hcb hb
          obtain ⟨h', hrun, hch, hfr, hsv⟩ := ih h1 la' (y :: lb') ex.next (some y) x ex
            hta1 hb1 h1x (List.nodup_cons.mp hnda).1 (hdisj x (List.mem_cons_self _ _))
            (fun z hz => hdisj z (List.mem_cons_of_mem _ hz))
            (by simp only [List.length_cons] at hlen ⊢; omega)
          refine ⟨h', ?_, ?_, ?_, hsv1.trans hsv⟩
          · simp only [merge_loop, deref_some hx, deref_some hy, bind, Except.bind, hlt, if_true,
              hset, deref_some h1x, deref_some h1c]
            exact hrun
          · have hc' : h' c = some { ec with next := some x } := by
              rw [hfr c (fun e => hcx e.symm) hca' hcb]
              exact h1c
            refine ⟨rfl, _, hc', ?_⟩
            have hm : merge_list (raw_at h) (x :: la') (y :: lb') =
                x :: merge_list (raw_at h) la' (y :: lb') := by
              simp only [merge_list, raw_at_of_some hx, raw_at_of_some hy, hlt, if_true]
            rw [hm, ← hsv1.raw_eq]
            exact hch
          · intro z hzc hza hzb
            have hzx : z ≠ x := fun e => hza (e ▸ List.mem_cons_self _ _)
            rw [hfr z hzx (fun hm => hza (List.mem_cons_of_mem _ hm)) hzb, h1def]
            exact Function.update_noteq hzc _ _
        · obtain ⟨h1, h1def⟩ : ∃ h1 : Heap,
              h1 = Function.update h c (some { ec with next := some y }) := ⟨_, rfl⟩
          have hset : set_next h (some c) (some y) = .ok h1 := by
            rw [h1def]; exact set_next_some hc _
          have hsv1 : SameValues h h1 := by rw [h1def]; exact SameValues.of_set_next hc (some y)
          have h1y : h1 y = some ey := by
            rw [h1def, Function.update_noteq hcy]; exact hy
          have h1c : h1 c = some { ec with next := some y } := by
            rw [h1def]; exact Function.update_same _ _ _
          have htb1 : Chain h1 ey.next lb' := by
            rw [h1def]; exact Chain.update_other _ hcb' htb
          have ha1 : Chain h1 (some x) (x :: la') := by
            rw [h1def]; exact Chain.update_other _ hca ha
          obtain ⟨h', hrun, hch, hfr, hsv⟩ := ih h1 (x :: la') lb' (some x) ey.next y ey
            ha1 htb1 h1y (fun hm => hdisj y hm (List.mem_cons_self _ _))
            (List.nodup_cons.mp hndb).1
            (fun z hz hm => hdisj z hz (List.mem_cons_of_mem _ hm))
            (by simp only [List.length_cons] at hlen ⊢; omega)
          refine ⟨h', ?_, ?_, ?_, hsv1.trans hsv⟩
          · simp only [merge_loop, deref_some hx, deref_some hy, bind, Except.bind, hlt, if_false,
              hset, deref_some h1y, deref_some h1c]
            exact hrun
          · have hc' : h' c = some { ec with next := some y } := by
              rw [hfr c (fun e => hcy e.symm) hca hcb']
              exact h1c
            refine ⟨rfl, _, hc', ?_⟩
            have hm : merge_list (raw_at h) (x :: la') (y :: lb') =
                y :: merge_list (raw_at h) (x :: la') lb' := by
              simp only [merge_list, raw_at_of_some hx, raw_at_of_some hy, hlt, if_false]
            rw [hm, ← hsv1.raw_eq]
            exact hch
          · intro z hzc hza hzb
            have hzy : z ≠ y := fun e => hzb (e ▸ List.mem_cons_self _ _)
            rw [hfr z hzy hza (fun hm => hzb (List.mem_cons_of_mem _ hm)), h1def]
            exact Function.update_noteq hzc _ _

theorem merge_spec (fuel : Nat) (h : Heap) (la lb : List Addr) (a b : Ptr)
    (ha : Chain h a la) (hb : Chain h b lb) (hdisj : ∀ x ∈ la, x ∉ lb)
    (hlen : la.length + lb.length ≤ fuel) :
    ∃ h' r, merge fuel h a b = .ok (h', r) ∧
      Chain h' r (merge_list (raw_at h) la lb) ∧
      (∀ x, x ∉ la → x ∉ lb → h' x = h x) ∧ SameValues h h' := by
  cases a with
  | none =>
    have hla := Chain.of_none ha
    subst hla
    exact ⟨h, b, by simp [merge], by simpa [merge_list] using hb, fun _ _ _ => rfl,
      SameValues.refl h⟩
  | some x =>
    obtain ⟨ex, la', hla, hx, hta⟩ := Chain.of_some ha
    subst hla
    cases b with
    | none =>
      have hlb := Chain.of_none hb
      subst hlb
      exact ⟨h, some x, by simp [merge], by simpa [merge_list] using ha, fun _ _ _ => rfl,
        SameValues.refl h⟩
    | some y =>
      obtain ⟨ey, lb', hlb, hy, htb⟩ := Chain.of_some hb
      subst hlb
      have hnda := Chain.nodup ha
      have hndb := Chain.nodup hb
      simp only [List.length_cons] at hlen
      by_cases hlt : strcmp ex.value ey.value < 0
      · obtain ⟨h', hrun, hch, hfr, hsv⟩ := merge_loop_spec fuel h la' (y :: lb') ex.next
          (some y) x ex hta hb hx (List.nodup_cons.mp hnda).1
          (hdisj x (List.mem_cons_self _ _))
          (fun z hz => hdisj z (List.mem_cons_of_mem _ hz))
          (by simp only [List.length_cons]; omega)
        refine ⟨h', some x, ?_, ?_, ?_, hsv⟩
        · simp only [merge, deref_some hx, deref_some hy, bind, Except.bind, hlt, if_true, hrun]
        · have hm : merge_list (raw_at h) (x :: la') (y :: lb') =
              x :: merge_list (raw_at h) la' (y :: lb') := by
            simp only [merge_list, raw_at_of_some hx, raw_at_of_some hy, hlt, if_true]
          rw [hm]
          exact hch
        · intro z hza hzb
          exact hfr z (fun e => hza (e ▸ List.mem_cons_self _ _))
            (fun hm => hza (List.mem_cons_of_mem _ hm)) hzb
      · obtain ⟨h', hrun, hch, hfr, hsv⟩ := merge_loop_spec fuel h (x :: la') lb' (some x)
          ey.next y ey ha htb hy (fun hm => hdisj y hm (List.mem_cons_self _ _))
          (List.nodup_cons.mp hndb).1
          (fun z hz hm => hdisj z hz (List.mem_cons_of_mem _ hm))
          (by simp only [List.length_cons]; omega)
        refine ⟨h', some y, ?_, ?_, ?_, hsv⟩
        · simp only [merge, deref_some hx, deref_some hy, bind, Except.bind, hlt, if_false, hrun]
        · have hm : merge_list (raw_at h) (x :: la') (y :: lb') =
              y :: merge_list (raw_at h) (x :: la') lb' := by
            simp only [merge_list, raw_at_of_some hx, raw_at_of_some hy, hlt, if_false]
          rw [hm]
          exact hch
        · intro z hza hzb
          exact hfr z (fun e => hzb (e ▸ List.mem_cons_self _ _)) hza
            (fun hm => hzb (List.mem_cons_of_mem _ hm))

/-! ## Splitting a chain -/

theorem split_loop_spec (fuel : Nat) : ∀ (h : Heap) (lf L : List Addr) (fast slow : Ptr),
    Chain h fast lf → Chain h slow L → lf.length / 2 < L.length → lf.length < fuel →
    ∃ l1 x l2, L = l1 ++ x :: l2 ∧ l1.length = lf.length / 2 ∧
      split_loop fuel h fast slow = .ok (some x) := by
  induction fuel with
  | zero => intro h lf L fast slow _ _ _ hlen; omega
  | succ fuel ih =>
    intro h lf L fast slow hf hs hL hlen
    cases fast with
    | none =>
      have hlf := Chain.of_none hf
      subst hlf
      cases L with
      | nil => simp at hL
      | cons x t =>
        have hsl : slow = some x := hs.1
        subst hsl
        exact ⟨[], x, t, rfl, rfl, by simp [split_loop]⟩
    | some f =>
      obtain ⟨ef, lf1, hlf, hef, htf⟩ := Chain.of_some hf
      subst hlf
      cases hn : ef.next with
      | none =>
        rw [hn] at htf
        have hlf1 := Chain.of_none htf
        subst hlf1
        obtain ⟨l1, x, l2, hL', hl1, hrun⟩ := ih h [] L none slow rfl hs
          (by simp only [List.length_cons, List.length_nil] at hL ⊢; omega)
          (by simp only [List.length_cons, List.length_nil] at hlen ⊢; omega)
        refine ⟨l1, x, l2, hL', by simpa using hl1, ?_⟩
        simp only [split_loop, deref_some hef, bind, Except.bind, hn]
        exact hrun
      | some f1 =>
        rw [hn] at htf
        obtain ⟨ef1, lf2, hlf1, hef1, htf1⟩ := Chain.of_some htf
        subst hlf1
        simp only [List.length_cons] at hL hlen
        have hdiv : (lf2.length + 1 + 1) / 2 = lf2.length / 2 + 1 := by omega
        rw [hdiv] at hL
        cases L with
        | nil => simp at hL
        | cons s L' =>
          obtain ⟨hsl, es, hes, hts⟩ := hs
          subst hsl
          simp only [List.length_cons] at hL
          obtain ⟨l1, x, l2, hL', hl1, hrun⟩ := ih h lf2 L' ef1.next es.next htf1 hts
            (by omega) (by omega)
          refine ⟨s :: l1, x, l2, by rw [hL']; rfl, ?_, ?_⟩
          · simp only [List.length_cons, hl1, hdiv]
          · simp only [split_loop, deref_some hef, bind, Except.bind, hn, deref_some hef1,
              deref_some hes]
            exact hrun

theorem Chain.cut {h : Heap} {p : Ptr} {l1 l2 : List Addr} {x : Addr} {ex : list_ele_t}
    (hc : Chain h p (l1 ++ x :: l2)) (hx : h x = some ex) :
    Chain (Function.update h x (some { ex with next := none })) p (l1 ++ [x]) ∧
    Chain (Function.update h x (some { ex with next := none })) ex.next l2 := by
  have hnd := Chain.nodup hc
  have hx1 : x ∉ l1 := fun hm =>
    (List.nodup_append.mp hnd).2.2 hm (List.mem_cons_self _ _)
  have hx2 : x ∉ l2 := (List.nodup_cons.mp (List.nodup_append.mp hnd).2.1).1
  obtain ⟨mid, hs1, hp, e, he, hs2⟩ := Seg.append.mp hc
  rw [hx] at he
  have hee : ex = e := Option.some.inj he
  subst hee
  constructor
  · refine Seg.append.mpr ⟨mid, Seg.update_of_not_mem _ hx1 hs1, hp, _,
      Function.update_same _ _ _, rfl⟩
  · exact Chain.update_other _ hx2 hs2

theorem split_queue_spec (fuel : Nat) (h : Heap) (a : Addr) (l : List Addr)
    (hc : Chain h (some a) (a :: l)) (hlen : l.length < fuel) :
    ∃ h' back lf lb, split_queue fuel h (some a) = .ok (h', some a, back) ∧
      a :: l = lf ++ lb ∧ lf.length = l.length / 2 + 1 ∧
      Chain h' (some a) lf ∧ Chain h' back lb ∧
      (∀ x, x ∉ a :: l → h' x = h x) ∧ SameValues h h' := by
  obtain ⟨_, e, he, ht⟩ := hc
  obtain ⟨l1, x, l2, hL, hl1, hrun⟩ := split_loop_spec fuel h l (a :: l) e.next (some a) ht
    ⟨rfl, e, he, ht⟩ (by simp only [List.length_cons]; omega) hlen
  have hc' : Chain h (some a) (l1 ++ x :: l2) := by
    rw [← hL]; exact ⟨rfl, e, he, ht⟩
  obtain ⟨mid, _, _, ex, hx, _⟩ := Seg.append.mp hc'
  obtain ⟨hfront, hback⟩ := Chain.cut hc' hx
  refine ⟨Function.update h x (some { ex with next := none }), ex.next, l1 ++ [x], l2,
    ?_, ?_, ?_, hfront, hback, ?_, SameValues.of_set_next hx none⟩
  · simp only [split_queue, deref_some he, bind, Except.bind, hrun, deref_some hx,
      set_next_some hx]
  · rw [hL]; simp
  · simp [hl1]
  · intro z hz
    rw [hL] at hz
    exact Function.update_noteq (fun ez => hz (by rw [ez]; simp)) _ _

/-! ## Merge sort on a chain -/

theorem merge_sort_spec (fuel : Nat) : ∀ (h : Heap) (head : Ptr) (l : List Addr),
    Chain h head l → l.length < fuel →
    ∃ h' r l', merge_sort fuel h head = .ok (h', r) ∧ Chain h' r l' ∧ l'.Perm l ∧
      Sorted (l'.map (raw_at h)) ∧ (∀ x, x ∉ l → h' x = h x) ∧ SameValues h h' := by
  induction fuel with
  | zero => intro h head l _ hlen; omega
  | succ fuel ih =>
    intro h head l hc hlen
    cases head with
    | none =>
      have hl := Chain.of_none hc
      subst hl
      exact ⟨h, none, [], by simp [merge_sort], rfl, List.Perm.refl _, List.Pairwise.nil,
        fun _ _ => rfl, SameValues.refl h⟩
    | some a =>
      obtain ⟨e, t, hl, he, ht⟩ := Chain.of_some hc
      subst hl
      cases hn : e.next with
      | none =>
        rw [hn] at ht
        have htn := Chain.of_none ht
        subst htn
        refine ⟨h, some a, [a], ?_, hc, List.Perm.refl _, ?_, fun _ _ => rfl,
          SameValues.refl h⟩
        · simp only [merge_sort, deref_some he, bind, Except.bind, hn]
        · simp [Sorted]
      | some a1 =>
        simp only [List.length_cons] at hlen
        have htpos : 0 < t.length := by
          rw [hn] at ht
          obtain ⟨_, t', ht', _, _⟩ := Chain.of_some ht
          rw [ht']; simp
        obtain ⟨h1, back, lf, lb, hsplit, happ, hlfl, hfront, hback, hfr1, hsv1⟩ :=
          split_queue_spec fuel h a t hc (by omega)
        have hnd : (lf ++ lb).Nodup := by rw [← happ]; exact Chain.nodup hc
        have hdisj : ∀ x ∈ lf, x ∉ lb := fun x hx hx' => (List.nodup_append.mp hnd).2.2 hx hx'
        have hlen' : lf.length + lb.length = t.length + 1 := by
          have := congrArg List.length happ
          simp only [List.length_cons, List.length_append] at this
          omega
        obtain ⟨h2, front1, lf', hs2, hc2, hp2, hso2, hfr2, hsv2⟩ :=
          ih h1 (some a) lf hfront (by omega)
        have hback2 : Chain h2 back lb :=
          Chain.congr_of_agree (fun x hx => hfr2 x (fun hm => hdisj x hm hx)) hback
        obtain ⟨h3, back1, lb', hs3, hc3, hp3, hso3, hfr3, hsv3⟩ :=
          ih h2 back lb hback2 (by omega)
        have hc2' : Chain h3 front1 lf' :=
          Chain.congr_of_agree (fun x hx => hfr3 x (fun hm => hdisj x (hp2.mem_iff.mp hx) hm)) hc2
        have hdisj' : ∀ x ∈ lf', x ∉ lb' := fun x hx hx' =>
          hdisj x (hp2.mem_iff.mp hx) (hp3.mem_iff.mp hx')
        obtain ⟨h4, r, hs4, hc4, hfr4, hsv4⟩ := merge_spec fuel h3 lf' lb' front1 back1 hc2' hc3
          hdisj' (by rw [hp2.length_eq, hp3.length_eq]; omega)
        have hraw1 : raw_at h1 = raw_at h := hsv1.raw_eq
        have hraw2 : raw_at h2 = raw_at h := by rw [hsv2.raw_eq, hraw1]
        have hraw3 : raw_at h3 = raw_at h := by rw [hsv3.raw_eq, hraw2]
        refine ⟨h4, r, merge_list (raw_at h3) lf' lb', ?_, hc4, ?_, ?_, ?_,
          ((hsv1.trans hsv2).trans hsv3).trans hsv4⟩
        · simp only [merge_sort, deref_some he, bind, Except.bind, hn, hsplit, hs2, hs3]
          exact hs4
        · rw [happ]
          exact (merge_list_perm _ lf' lb').trans (hp2.append hp3)
        · rw [hraw3]
          rw [hraw1] at hso2
          rw [hraw2] at hso3
          exact merge_list_sorted _ lf' lb' hso2 hso3
        · intro x hx
          rw [happ] at hx
          have hxf : x ∉ lf := fun hm => hx (List.mem_append_left _ hm)
          have hxb : x ∉ lb := fun hm => hx (List.mem_append_right _ hm)
          rw [hfr4 x (fun hm => hxf (hp2.mem_iff.mp hm)) (fun hm => hxb (hp3.mem_iff.mp hm)),
            hfr3 x hxb, hfr2 x hxf]
          exact hfr1 x (by rw [happ]; exact hx)

/-! ## Sorting a queue -/

theorem q_size_of_linked {h : Heap} {q : queue_t} {l : List Addr} (hl : Linked h q l) :
    q_size (some q) = (l.length : Int) := by
  show (if q.size = 0 then 0 else q.size) = (l.length : Int)
  rw [hl.2.1]
  split_ifs with h0
  · exact h0.symm
  · rfl

theorem sorted_value_of_raw {h h' : Heap} (hv : SameValues h h') {l : List Addr}
    (hs : Sorted (l.map (raw_at h))) : Sorted (l.map (value_at h')) := by
  unfold Sorted at hs ⊢
  rw [List.pairwise_map] at hs ⊢
  refine hs.imp ?_
  intro a b hab
  rw [hv.value_eq, value_at_eq_cstr_raw, value_at_eq_cstr_raw, strcmp_cstr_left,
    strcmp_cstr_right]
  exact hab

theorem sorted_of_length_le_one {vs : List Bytes} (hl : vs.length ≤ 1) : Sorted vs := by
  match vs, hl with
  | [], _ => exact List.Pairwise.nil
  | [v], _ => exact List.pairwise_singleton _ v

theorem q_sort_spec (fuel : Nat) (h : Heap) (q : queue_t) (l : List Addr)
    (hl : Linked h q l) (hfuel : l.length < fuel) :
    ∃ h' hd l', q_sort fuel h (some q) = .ok ⟨h', some { q with head := hd }, ()⟩ ∧
      Chain h' hd l' ∧ l'.Perm l ∧ Sorted (l'.map (raw_at h)) ∧
      (∀ x, x ∉ l → h' x = h x) ∧ SameValues h h' := by
  have hsz := q_size_of_linked hl
  by_cases hsmall : l.length ≤ 1
  · refine ⟨h, q.head, l, ?_, hl.1, List.Perm.refl _, ?_, fun _ _ => rfl, SameValues.refl h⟩
    · have hc : q_size (some q) = 0 ∨ q_size (some q) = 1 := by
        rw [hsz]; omega
      simp only [q_sort, hc, if_true]
    · exact sorted_of_length_le_one (by simpa using hsmall)
  · obtain ⟨h', r, l', hrun, hc, hp, hso, hfr, hsv⟩ := merge_sort_spec fuel h q.head l hl.1 hfuel
    refine ⟨h', r, l', ?_, hc, hp, hso, hfr, hsv⟩
    have hc : ¬ (q_size (some q) = 0 ∨ q_size (some q) = 1) := by
      rw [hsz]; omega
    simp only [q_sort, hc, if_false, bind, Except.bind, hrun]

/-! ## Insertion -/

theorem Seg.allocated {h : Heap} {p : Ptr} {l : List Addr} {stop : Ptr} (hs : Seg h p l stop)
    {x : Addr} (hx : x ∈ l) : ∃ e, h x = some e := by
  induction l generalizing p with
  | nil => simp at hx
  | cons a l ih =>
    obtain ⟨_, e, he, ht⟩ := hs
    rcases List.mem_cons.mp hx with rfl | hx
    · exact ⟨e, he⟩
    · exact ih ht hx

theorem Chain.not_mem_of_free {h : Heap} {p : Ptr} {l : List Addr} (hs : Chain h p l)
    {a : Addr} (ha : h a = none) : a ∉ l := by
  intro hm
  obtain ⟨e, he⟩ := Seg.allocated hs hm
  rw [ha] at he
  exact absurd he (by simp)

theorem strncpy_copy (s : Bytes) :
    strncpy (List.replicate (strlen s + 1) 0) s (strlen s + 1) = .ok (cstr s ++ [0]) := by
  unfold strncpy
  rw [if_pos (by simp)]
  have h1 : List.take (strlen s + 1) (cstr s) = cstr s :=
    List.take_of_length_le (by unfold strlen; omega)
  have h2 : List.drop (strlen s + 1) (List.replicate (strlen s + 1) 0) = ([] : List Nat) :=
    List.drop_of_length_le (by simp)
  rw [h1, h2]
  simp

theorem value_at_of_some {h : Heap} {a : Addr} {e : list_ele_t} (he : h a = some e) :
    value_at h a = cstr e.value := by
  simp [value_at, he]

theorem cstr_copy (s : Bytes) : cstr (cstr s ++ [0]) = cstr s :=
  cstr_append_zero (cstr s) [] (cstr_no_zero s)

theorem getLast?_cons_of_ne_nil (a : Addr) {l : List Addr} (hl : l ≠ []) :
    (a :: l).getLast? = l.getLast? := by
  cases l with
  | nil => exact absurd rfl hl
  | cons b t => exact List.getLast?_cons_cons

theorem int_wrap_of_range {x : Int} (h1 : -2147483648 ≤ x) (h2 : x ≤ INT_MAX) :
    int_wrap x = x := by
  unfold int_wrap
  unfold INT_MAX at h2
  omega

theorem getLast?_cons_ne_none (a : Addr) (l : List Addr) : (a :: l).getLast? ≠ none := by
  intro hn
  exact absurd (List.getLast?_eq_none_iff.mp hn) (by simp)

theorem q_insert_head_spec (h : Heap) (q : queue_t) (l : List Addr) (s : Bytes) (a : Addr)
    (hl : Linked h q l) (ha : h a = none) :
    ∃ h' q', q_insert_head h (some q) s (some a) true = .ok ⟨h', some q', true⟩ ∧
      Chain h' q'.head (a :: l) ∧ q'.tail = (a :: l).getLast? ∧
      (∀ x, x ≠ a → h' x = h x) ∧ value_at h' a = cstr s ∧
      q'.size = int_wrap (q.size + 1) := by
  have hal : a ∉ l := Chain.not_mem_of_free hl.1 ha
  obtain ⟨h', hdef⟩ : ∃ h' : Heap, h' = Function.update
      (Function.update h a (some { value := [], next := none })) a
      (some { value := cstr s ++ [0], next := q.head }) := ⟨_, rfl⟩
  have hfr : ∀ x, x ≠ a → h' x = h x := by
    intro x hx
    rw [hdef, Function.update_noteq hx, Function.update_noteq hx]
  have h'a : h' a = some { value := cstr s ++ [0], next := q.head } := by
    rw [hdef]; exact Function.update_same _ _ _
  have hchain : Chain h' (some a) (a :: l) :=
    ⟨rfl, _, h'a, Chain.congr_of_agree (fun x hx => hfr x (fun e => hal (e ▸ hx))) hl.1⟩
  by_cases hempty : l = []
  · subst hempty
    have hs0 : q.size = 0 := by simpa using hl.2.1
    refine ⟨h', { head := some a, tail := some a, size := int_wrap (q.size + 1) }, ?_, hchain,
      rfl, hfr, ?_, rfl⟩
    · simp only [q_insert_head, strncpy_copy, bind, Except.bind, q_size, hs0]
      simp [hdef]
    · rw [value_at_of_some h'a]; exact cstr_copy s
  · have hs0 : q.size ≠ 0 := by
      rw [hl.2.1]
      have : 0 < l.length := List.length_pos.mpr hempty
      omega
    refine ⟨h', { head := some a, tail := q.tail, size := int_wrap (q.size + 1) }, ?_, hchain,
      ?_, hfr, ?_, rfl⟩
    · simp only [q_insert_head, strncpy_copy, bind, Except.bind, q_size, hs0]
      simp [hdef, hs0]
    · show q.tail = (a :: l).getLast?
      rw [getLast?_cons_of_ne_nil a hempty]
      exact hl.2.2 hempty
    · rw [value_at_of_some h'a]; exact cstr_copy s

theorem q_insert_head_linked (h : Heap) (q : queue_t) (l : List Addr) (s : Bytes) (a : Addr)
    (hl : Linked h q l) (ha : h a = none) (hmax : q.size < INT_MAX) :
    ∃ h' q', q_insert_head h (some q) s (some a) true = .ok ⟨h', some q', true⟩ ∧
      Linked h' q' (a :: l) ∧ (∀ x, x ≠ a → h' x = h x) ∧ value_at h' a = cstr s ∧
      q'.size = q.size + 1 := by
  obtain ⟨h', q', hrun, hc, ht, hfr, hval, hsz⟩ := q_insert_head_spec h q l s a hl ha
  have hw : int_wrap (q.size + 1) = q.size + 1 := by
    have h0 : (0 : Int) ≤ q.size := by rw [hl.2.1]; omega
    exact int_wrap_of_range (by omega) (by unfold INT_MAX at hmax ⊢; omega)
  rw [hw] at hsz
  refine ⟨h', q', hrun, ⟨hc, ?_, fun _ => ht⟩, hfr, hval, hsz⟩
  rw [hsz, hl.2.1]
  simp

theorem free_update_of_fresh {h : Heap} {a : Addr} (ha : h a = none) (v : Option list_ele_t) :
    free (Function.update h a v) a = h := by
  funext x
  unfold free
  by_cases hx : x = a
  · subst hx
    rw [Function.update_same, ha]
  · rw [Function.update_noteq hx, Function.update_noteq hx]

theorem q_insert_head_fail (h : Heap) (q : queue_t) (s : Bytes) (newh : Ptr) (value_ok : Bool)
    (hf : Fresh h newh) (hfail : newh = none ∨ value_ok = false) :
    q_insert_head h (some q) s newh value_ok = .ok ⟨h, some q, false⟩ := by
  cases newh with
  | none => rfl
  | some a =>
    have hv : value_ok = false := by
      rcases hfail with hn | hv
      · exact absurd hn (by simp)
      · exact hv
    have ha : h a = none := hf
    simp only [q_insert_head, hv, if_true, free_update_of_fresh ha]

theorem q_insert_tail_fail (h : Heap) (q : queue_t) (s : Bytes) (newt : Ptr) (value_ok : Bool)
    (hf : Fresh h newt) (hfail : newt = none ∨ value_ok = false) :
    q_insert_tail h (some q) s newt value_ok = .ok ⟨h, some q, false⟩ := by
  cases newt with
  | none => rfl
  | some a =>
    have hv : value_ok = false := by
      rcases hfail with hn | hv
      · exact absurd hn (by simp)
      · exact hv
    have ha : h a = none := hf
    simp only [q_insert_tail, hv, if_true, free_update_of_fresh ha]

theorem exists_append_last {l : List Addr} (hl : l ≠ []) : ∃ l0 t, l = l0 ++ [t] :=
  ⟨l.dropLast, l.getLast hl, (List.dropLast_append_getLast hl).symm⟩

theorem q_insert_tail_spec (h : Heap) (q : queue_t) (l : List Addr) (s : Bytes) (a : Addr)
    (hl : Linked h q l) (ha : h a = none) :
    ∃ h' q', q_insert_tail h (some q) s (some a) true = .ok ⟨h', some q', true⟩ ∧
      Chain h' q'.head (l ++ [a]) ∧ q'.tail = some a ∧ (∀ x, x ∉ a :: l → h' x = h x) ∧
      (∀ x, x ≠ a → Option.map list_ele_t.value (h' x) = Option.map list_ele_t.value (h x)) ∧
      value_at h' a = cstr s ∧ q'.size = int_wrap (q.size + 1) := by
  have hal : a ∉ l := Chain.not_mem_of_free hl.1 ha
  obtain ⟨h2, hdef⟩ : ∃ h2 : Heap, h2 = Function.update
      (Function.update h a (some { value := [], next := none })) a
      (some { value := cstr s ++ [0], next := none }) := ⟨_, rfl⟩
  have hfr2 : ∀ x, x ≠ a → h2 x = h x := by
    intro x hx
    rw [hdef, Function.update_noteq hx, Function.update_noteq hx]
  have h2a : h2 a = some { value := cstr s ++ [0], next := none } := by
    rw [hdef]; exact Function.update_same _ _ _
  by_cases hempty : l = []
  · subst hempty
    have hs0 : q.size = 0 := by simpa using hl.2.1
    refine ⟨h2, { head := some a, tail := some a, size := int_wrap (q.size + 1) }, ?_, ?_,
      rfl, ?_, ?_, ?_, rfl⟩
    · simp only [q_insert_tail, strncpy_copy, bind, Except.bind, q_size, hs0]
      simp [hdef]
    · exact ⟨rfl, _, h2a, rfl⟩
    · intro x hx
      exact hfr2 x (fun e => hx (e ▸ List.mem_cons_self _ _))
    · intro x hx
      rw [hfr2 x hx]
    · rw [value_at_of_some h2a]; exact cstr_copy s
  · have hs0 : q.size ≠ 0 := by
      rw [hl.2.1]
      have : 0 < l.length := List.length_pos.mpr hempty
      omega
    obtain ⟨l0, t, hlt⟩ := exists_append_last hempty
    subst hlt
    have htail : q.tail = some t := by
      rw [hl.2.2 hempty]; exact List.getLast?_concat l0
    have hnd := Chain.nodup hl.1
    have ht0 : t ∉ l0 := fun hm =>
      (List.nodup_append.mp hnd).2.2 hm (List.mem_singleton_self t)
    have hta : t ≠ a := fun e => hal (e ▸ List.mem_append_right _ (List.mem_singleton_self t))
    have ha0 : a ∉ l0 := fun hm => hal (List.mem_append_left _ hm)
    obtain ⟨mid, hs1, hmid, et, het, hnext⟩ := Seg.append.mp hl.1
    have hnext' : et.next = none := hnext
    have h2t : h2 t = some et := by rw [hfr2 t hta]; exact het
    obtain ⟨h3, h3def⟩ : ∃ h3 : Heap,
        h3 = Function.update h2 t (some { et with next := some a }) := ⟨_, rfl⟩
    have hset : set_next h2 (some t) (some a) = .ok h3 := by
      rw [h3def]; exact set_next_some h2t _
    have h3t : h3 t = some { et with next := some a } := by
      rw [h3def]; exact Function.update_same _ _ _
    have h3a : h3 a = some { value := cstr s ++ [0], next := none } := by
      rw [h3def, Function.update_noteq (fun e => hta e.symm)]; exact h2a
    have hfr3 : ∀ x, x ≠ a → x ≠ t → h3 x = h x := by
      intro x hxa hxt
      rw [h3def, Function.update_noteq hxt]
      exact hfr2 x hxa
    refine ⟨h3, { head := q.head, tail := some a, size := int_wrap (q.size + 1) }, ?_, ?_,
      rfl, ?_, ?_, ?_, rfl⟩
    · simp only [q_insert_tail, strncpy_copy, bind, Except.bind, q_size, hs0]
      simp only [Bool.true_eq_false, if_false, ← hdef, htail, hset]
      rw [if_neg hs0]
    · show Seg h3 q.head (l0 ++ [t] ++ [a]) none
      rw [List.append_assoc]
      refine Seg.append.mpr ⟨mid, ?_, hmid, _, h3t, rfl, _, h3a, rfl⟩
      exact Seg.congr (fun x hx => hfr3 x (fun e => ha0 (e ▸ hx)) (fun e => ht0 (e ▸ hx))) hs1
    · intro x hx
      exact hfr3 x (fun e => hx (e ▸ List.mem_cons_self _ _))
        (fun e => hx (List.mem_cons_of_mem _
          (by rw [e]; exact List.mem_append_right _ (List.mem_singleton_self t))))
    · intro x hx
      by_cases hxt : x = t
      · subst hxt
        rw [h3t, het]
        rfl
      · rw [hfr3 x hx hxt]
    · rw [value_at_of_some h3a]; exact cstr_copy s

theorem q_insert_tail_linked (h : Heap) (q : queue_t) (l : List Addr) (s : Bytes) (a : Addr)
    (hl : Linked h q l) (ha : h a = none) (hmax : q.size < INT_MAX) :
    ∃ h' q', q_insert_tail h (some q) s (some a) true = .ok ⟨h', some q', true⟩ ∧
      Linked h' q' (l ++ [a]) ∧ (∀ x, x ∉ a :: l → h' x = h x) ∧
      (∀ x, x ≠ a → Option.map list_ele_t.value (h' x) = Option.map list_ele_t.value (h x)) ∧
      value_at h' a = cstr s ∧ q'.size = q.size + 1 := by
  obtain ⟨h', q', hrun, hc, ht, hfr, hvals, hval, hsz⟩ := q_insert_tail_spec h q l s a hl ha
  have hw : int_wrap (q.size + 1) = q.size + 1 := by
    have h0 : (0 : Int) ≤ q.size := by rw [hl.2.1]; omega
    exact int_wrap_of_range (by omega) (by unfold INT_MAX at hmax ⊢; omega)
  rw [hw] at hsz
  refine ⟨h', q', hrun, ⟨hc, ?_, fun _ => ?_⟩, hfr, hvals, hval, hsz⟩
  · rw [hsz, hl.2.1]
    simp
  · rw [ht]
    exact (List.getLast?_concat l).symm

/-! ## Removal -/

theorem size_sub_one {n : Nat} (h1 : 1 ≤ n) (h2 : n < SIZE_MOD) : size_sub n 1 = n - 1 := by
  unfold size_sub SIZE_MOD at *
  omega

theorem set_length_append (l1 l2 : Bytes) (c : Nat) :
    (l1 ++ l2).set l1.length c = l1 ++ l2.set 0 c := by
  induction l1 with
  | nil => rfl
  | cons a l1 ih => simp [ih]

theorem copy_out (buf v : Bytes) (n : Nat) (h1 : 1 ≤ n) (h2 : n ≤ buf.length)
    (h3 : n < SIZE_MOD) :
    ∃ b1 b2, strncpy buf v (size_sub n 1) = .ok b1 ∧ store_byte b1 (size_sub n 1) 0 = .ok b2 ∧
      cstr b2 = (cstr v).take (n - 1) ∧ b2.length = buf.length := by
  rw [size_sub_one h1 h3]
  obtain ⟨d, D, hd⟩ : ∃ d D, buf.drop (n - 1) = d :: D := by
    cases hdr : buf.drop (n - 1) with
    | nil =>
      have := congrArg List.length hdr
      simp at this
      omega
    | cons d D => exact ⟨d, D, rfl⟩
  obtain ⟨A, hA⟩ : ∃ A : Bytes, A = (cstr v).take (n - 1) ++
      List.replicate (n - 1 - strlen v) 0 := ⟨_, rfl⟩
  have hAlen : A.length = n - 1 := by
    rw [hA]
    simp only [List.length_append, List.length_take, List.length_replicate, strlen]
    omega
  have hb1 : strncpy buf v (n - 1) = .ok (A ++ d :: D) := by
    unfold strncpy
    rw [if_pos (by omega), hd, hA]
  refine ⟨A ++ d :: D, A ++ 0 :: D, hb1, ?_, ?_, ?_⟩
  · unfold store_byte
    have hlen : n - 1 < (A ++ d :: D).length := by
      simp only [List.length_append, List.length_cons, hAlen]; omega
    rw [if_pos hlen]
    have := set_length_append A (d :: D) 0
    rw [hAlen] at this
    rw [this]
    rfl
  · rw [hA, List.append_assoc]
    have hz : ∃ t, List.replicate (n - 1 - strlen v) 0 ++ 0 :: D = 0 :: t := by
      cases (n - 1 - strlen v) with
      | zero => exact ⟨D, rfl⟩
      | succ k => exact ⟨_, rfl⟩
    obtain ⟨t, ht⟩ := hz
    rw [ht]
    exact cstr_append_zero _ t (fun b hb => cstr_no_zero v b (List.mem_of_mem_take hb))
  · have hlen := congrArg List.length hd
    simp only [List.length_drop, List.length_cons] at hlen
    simp only [List.length_append, List.length_cons, hAlen]
    omega

theorem q_remove_head_spec (h : Heap) (q : queue_t) (a : Addr) (l : List Addr)
    (sp : Option Bytes) (bufsize : Nat) (hl : Linked h q (a :: l)) (hb : BufferOK sp bufsize) :
    ∃ e sp', h a = some e ∧
      q_remove_head h (some q) sp bufsize =
        .ok ⟨free h a, some { q with head := e.next, size := int_wrap (q.size - 1) }, sp',
          true⟩ ∧
      (q.size ≤ INT_MAX →
        Linked (free h a) { q with head := e.next, size := int_wrap (q.size - 1) } l ∧
        int_wrap (q.size - 1) = q.size - 1) ∧
      (∀ buf, sp = some buf → ∃ b, sp' = some b ∧ cstr b = (cstr e.value).take (bufsize - 1) ∧
        b.length = buf.length) ∧
      (sp = none → sp' = none) := by
  obtain ⟨hhead, e, he, ht⟩ := hl.1
  have hnd := Chain.nodup hl.1
  have hal : a ∉ l := (List.nodup_cons.mp hnd).1
  have hs0 : q.size ≠ 0 := by
    rw [hl.2.1]; simp only [List.length_cons]; omega
  have hlinked : q.size ≤ INT_MAX →
      Linked (free h a) { q with head := e.next, size := int_wrap (q.size - 1) } l ∧
      int_wrap (q.size - 1) = q.size - 1 := by
    intro hmax
    have hpos : (1 : Int) ≤ q.size := by
      rw [hl.2.1]; simp only [List.length_cons]; omega
    have hw : int_wrap (q.size - 1) = q.size - 1 :=
      int_wrap_of_range (by omega) (by unfold INT_MAX at hmax ⊢; omega)
    refine ⟨⟨Chain.update_other _ hal ht, ?_, fun hne => ?_⟩, hw⟩
    · show int_wrap (q.size - 1) = (l.length : Int)
      rw [hw, hl.2.1]; simp
    · show q.tail = l.getLast?
      rw [hl.2.2 (by simp), getLast?_cons_of_ne_nil a hne]
  cases sp with
  | none =>
    refine ⟨e, none, he, ?_, hlinked, fun buf hbuf => absurd hbuf (by simp), fun _ => rfl⟩
    unfold q_remove_head
    simp only [q_size, hs0, if_false, hhead, he]
  | some buf =>
    obtain ⟨h1, h2, h3⟩ := hb
    obtain ⟨b1, b2, hc1, hc2, hcs, hlen⟩ := copy_out buf e.value bufsize h1 h2 h3
    refine ⟨e, some b2, he, ?_, hlinked, fun buf' hbuf => ?_, fun hn => absurd hn (by simp)⟩
    · unfold q_remove_head
      simp only [q_size, hs0, if_false, hhead, he]
      rw [hc1]
      show (do
        let b2 ← store_byte b1 (size_sub bufsize 1) 0
        Except.ok (⟨free h a, some ⟨e.next, q.tail, int_wrap (q.size - 1)⟩, some b2, true⟩ :
          Removal)) = _
      rw [hc2]
      rfl
    · have : buf = buf' := Option.some.inj hbuf
      subst this
      exact ⟨b2, rfl, hcs, hlen⟩

/-! ## Reversal -/

theorem reverse_loop_spec (fuel : Nat) : ∀ (h : Heap) (r d : List Addr) (pre pos stop : Ptr)
    (c : Addr) (ec : list_ele_t), Seg h pre d stop → Chain h pos r → h c = some ec →
    c ∉ d → c ∉ r → (∀ x ∈ r, x ∉ d) → r.length < fuel →
    ∃ h' last, reverse_loop fuel h pre (some c) pos = .ok (h', some last) ∧
      Seg h' (some last) ((c :: r).reverse ++ d) stop ∧ (c :: r).getLast? = some last ∧
      (∀ x, x ≠ c → x ∉ r → h' x = h x) ∧ SameValues h h' := by
  induction fuel with
  | zero => intro h r d pre pos stop c ec _ _ _ _ _ _ hlen; omega
  | succ fuel ih =>
    intro h r d pre pos stop c ec hpre hpos hc hcd hcr hdisj hlen
    obtain ⟨h1, h1def⟩ : ∃ h1 : Heap,
        h1 = Function.update h c (some { ec with next := pre }) := ⟨_, rfl⟩
    have hset : set_next h (some c) pre = .ok h1 := by
      rw [h1def]; exact set_next_some hc _
    have h1c : h1 c = some { ec with next := pre } := by
      rw [h1def]; exact Function.update_same _ _ _
    have hsv1 : SameValues h h1 := by rw [h1def]; exact SameValues.of_set_next hc pre
    have hpre1 : Seg h1 (some c) (c :: d) stop :=
      ⟨rfl, _, h1c, by rw [h1def]; exact Seg.update_of_not_mem _ hcd hpre⟩
    cases pos with
    | none =>
      have hr := Chain.of_none hpos
      subst hr
      refine ⟨h1, c, ?_, by simpa using hpre1, rfl, ?_, hsv1⟩
      · simp only [reverse_loop, hset, bind, Except.bind]
      · intro x hx _
        rw [h1def]; exact Function.update_noteq hx _ _
    | some p =>
      obtain ⟨ep, r', hr, hp, htr⟩ := Chain.of_some hpos
      subst hr
      have hnd := Chain.nodup hpos
      have hpc : p ≠ c := ne_of_not_mem_cons hcr
      have hcr' : c ∉ r' := fun hm => hcr (List.mem_cons_of_mem _ hm)
      have h1p : h1 p = some ep := by
        rw [h1def, Function.update_noteq hpc]; exact hp
      have htr1 : Chain h1 ep.next r' := by
        rw [h1def]; exact Chain.update_other _ hcr' htr
      obtain ⟨h', last, hrun, hseg, hlast, hfr, hsv⟩ := ih h1 r' (c :: d) (some c) ep.next stop
        p ep hpre1 htr1 h1p
        (fun hm => by
          rcases List.mem_cons.mp hm with e | hm
          · exact hpc e
          · exact hdisj p (List.mem_cons_self _ _) hm)
        (List.nodup_cons.mp hnd).1
        (fun x hx hm => by
          rcases List.mem_cons.mp hm with e | hm
          · exact hcr' (e ▸ hx)
          · exact hdisj x (List.mem_cons_of_mem _ hx) hm)
        (by simp only [List.length_cons] at hlen; omega)
      refine ⟨h', last, ?_, ?_, ?_, ?_, hsv1.trans hsv⟩
      · simp only [reverse_loop, hset, bind, Except.bind, deref_some h1p]
        exact hrun
      · have hrev : (c :: p :: r').reverse ++ d = (p :: r').reverse ++ c :: d := by
          simp
        rw [hrev]
        exact hseg
      · rw [List.getLast?_cons_cons]
        exact hlast
      · intro x hxc hxr
        rw [hfr x (fun e => hxr (e ▸ List.mem_cons_self _ _))
          (fun hm => hxr (List.mem_cons_of_mem _ hm)), h1def]
        exact Function.update_noteq hxc _ _

theorem q_reverse_spec (fuel : Nat) (h : Heap) (q : queue_t) (l : List Addr)
    (hl : Linked h q l) (hfuel : l.length < fuel) :
    ∃ h' q', q_reverse fuel h (some q) = .ok ⟨h', some q', ()⟩ ∧ Linked h' q' l.reverse ∧
      (∀ x, x ∉ l → h' x = h x) ∧ SameValues h h' ∧ q'.size = q.size ∧
      (2 ≤ l.length → q'.head = q.tail ∧ q'.tail = q.head) ∧
      (l.length ≤ 1 → h' = h ∧ q' = q) := by
  have hsz := q_size_of_linked hl
  match l, hl, hfuel, hsz with
  | [], hl, _, hsz =>
    refine ⟨h, q, ?_, hl, fun _ _ => rfl, SameValues.refl h, rfl,
      fun h2 => absurd h2 (by simp), fun _ => ⟨rfl, rfl⟩⟩
    simp only [q_reverse, hsz]
    simp
  | [a], hl, _, hsz =>
    refine ⟨h, q, ?_, hl, fun _ _ => rfl, SameValues.refl h, rfl,
      fun h2 => absurd h2 (by simp), fun _ => ⟨rfl, rfl⟩⟩
    simp only [q_reverse, hsz]
    simp
  | a0 :: a1 :: rest, hl, hfuel, hsz =>
    obtain ⟨hhead, e0, he0, hn0, e1, he1, hrest⟩ := hl.1
    have hnd := Chain.nodup hl.1
    have hnd1 := (List.nodup_cons.mp hnd).2
    have ha0 : a0 ∉ a1 :: rest := (List.nodup_cons.mp hnd).1
    simp only [List.length_cons] at hfuel
    obtain ⟨h1, last, hrun, hseg, hlast, hfr, hsv⟩ := reverse_loop_spec fuel h rest []
      (some a0) e1.next (some a0) a1 e1 rfl hrest he1 (by simp) (List.nodup_cons.mp hnd1).1
      (fun _ _ => by simp) (by omega)
    have h1a0 : h1 a0 = some e0 := by
      rw [hfr a0 (fun e => ha0 (e ▸ List.mem_cons_self _ _))
        (fun hm => ha0 (List.mem_cons_of_mem _ hm))]
      exact he0
    obtain ⟨h2, h2def⟩ : ∃ h2 : Heap,
        h2 = Function.update h1 a0 (some { e0 with next := none }) := ⟨_, rfl⟩
    have hset : set_next h1 (some a0) none = .ok h2 := by
      rw [h2def]; exact set_next_some h1a0 _
    have htail : q.tail = (a0 :: a1 :: rest).getLast? := hl.2.2 (by simp)
    refine ⟨h2, { head := some last, tail := q.head, size := q.size }, ?_, ?_, ?_, ?_, rfl,
      fun _ => ⟨?_, rfl⟩, fun h1 => absurd h1 (by simp)⟩
    · have hc : ¬ (q_size (some q) = 0 ∨ q_size (some q) = 1) := by
        rw [hsz]; simp only [List.length_cons]; push_cast; omega
      simp only [q_reverse, hc, if_false, hhead, deref_some he0, bind, Except.bind, hn0,
        deref_some he1, hrun, hset]
    · refine ⟨?_, ?_, fun _ => ?_⟩
      · show Seg h2 (some last) (a0 :: a1 :: rest).reverse none
        rw [List.reverse_cons]
        rw [List.append_nil] at hseg
        refine Seg.append.mpr ⟨some a0, ?_, rfl, { e0 with next := none }, ?_, rfl⟩
        · rw [h2def]
          exact Seg.update_of_not_mem _ (fun hm => ha0 (List.mem_reverse.mp hm)) hseg
        · rw [h2def]; exact Function.update_same _ _ _
      · show q.size = ((a0 :: a1 :: rest).reverse.length : Int)
        rw [List.length_reverse]; exact hl.2.1
      · show q.head = (a0 :: a1 :: rest).reverse.getLast?
        rw [List.getLast?_reverse, hhead]; rfl
    · intro x hx
      have hx0 : x ≠ a0 := fun e => hx (e ▸ List.mem_cons_self _ _)
      rw [h2def, Function.update_noteq hx0]
      exact hfr x (fun e => hx (e ▸ List.mem_cons_of_mem _ (List.mem_cons_self _ _)))
        (fun hm => hx (List.mem_cons_of_mem _ (List.mem_cons_of_mem _ hm)))
    · refine hsv.trans ?_
      rw [h2def]; exact SameValues.of_set_next h1a0 none
    · show some last = q.tail
      rw [htail, List.getLast?_cons_cons]
      exact hlast.symm

/-! ## Single calls and sequences of calls -/

theorem size_zero_iff_head_none {h : Heap} {q : queue_t} {l : List Addr}
    (hc : Chain h q.head l) (hs : q.size = (l.length : Int)) : q.size = 0 ↔ q.head = none := by
  cases l with
  | nil =>
    have hh : q.head = none := hc
    simp [hs, hh]
  | cons a l =>
    have hh : q.head = some a := hc.1
    rw [hs, hh]
    simp only [List.length_cons]
    constructor
    · intro h0; omega
    · intro h0; exact absurd h0 (by simp)

theorem heap_bac_linked : Linked heap_bac ⟨some 0, some 2, 3⟩ [0, 1, 2] :=
  ⟨⟨rfl, ⟨[98, 0], some 1⟩, rfl, rfl, ⟨[97, 0], some 2⟩, rfl, rfl, ⟨[99, 0], none⟩, rfl, rfl⟩,
    rfl, fun _ => rfl⟩

theorem heap_a_linked : Linked heap_a ⟨some 0, some 0, 1⟩ [0] :=
  ⟨⟨rfl, ⟨[97, 0], none⟩, rfl, rfl⟩, rfl, fun _ => rfl⟩

theorem heap_hello_linked : Linked heap_hello ⟨some 0, some 0, 1⟩ [0] :=
  ⟨⟨rfl, ⟨[104, 101, 108, 108, 111, 0], none⟩, rfl, rfl⟩, rfl, fun _ => rfl⟩

theorem step_basic_spec (fuel : Nat) (h : Heap) (q : queue_t) (l : List Addr) (op : Op)
    (hl : Linked h q l) (hadm : op.admissible h) (hb : op.basic = true)
    (hmax : q.size + (insert_calls [op] : Int) ≤ INT_MAX) :
    ∃ r q' l', step fuel h (some q) op = .ok r ∧ r.q = some q' ∧ Linked r.heap q' l' ∧
      q'.size = q.size + (successful_inserts [op] [r.ret] : Int) -
        (successful_removals [op] [r.ret] : Int) ∧
      q'.size ≤ q.size + (insert_calls [op] : Int) := by
  cases op with
  | insert_head s newh value_ok =>
    have hlt : q.size < INT_MAX := by
      simp only [insert_calls] at hmax
      push_cast at hmax
      omega
    by_cases hok : ∃ a, newh = some a ∧ value_ok = true
    · obtain ⟨a, hn, hv⟩ := hok
      subst hn; subst hv
      obtain ⟨h', q', hrun, hl', _, _, hsz⟩ := q_insert_head_linked h q l s a hl hadm hlt
      refine ⟨⟨h', some q', some true⟩, q', a :: l, ?_, rfl, hl', ?_, ?_⟩
      · simp only [step, hrun, bind, Except.bind]
      · simp [successful_inserts, successful_removals, hsz]
      · simp [insert_calls, hsz]
    · have hfail : newh = none ∨ value_ok = false := by
        cases newh with
        | none => exact Or.inl rfl
        | some a =>
          right
          cases value_ok with
          | false => rfl
          | true => exact absurd ⟨a, rfl, rfl⟩ hok
      have hrun := q_insert_head_fail h q s newh value_ok hadm hfail
      refine ⟨⟨h, some q, some false⟩, q, l, ?_, rfl, hl, ?_, ?_⟩
      · simp only [step, hrun, bind, Except.bind]
      · simp [successful_inserts, successful_removals]
      · simp [insert_calls]
  | insert_tail s newt value_ok =>
    have hlt : q.size < INT_MAX := by
      simp only [insert_calls] at hmax
      push_cast at hmax
      omega
    by_cases hok : ∃ a, newt = some a ∧ value_ok = true
    · obtain ⟨a, hn, hv⟩ := hok
      subst hn; subst hv
      obtain ⟨h', q', hrun, hl', _, _, _, hsz⟩ := q_insert_tail_linked h q l s a hl hadm hlt
      refine ⟨⟨h', some q', some true⟩, q', l ++ [a], ?_, rfl, hl', ?_, ?_⟩
      · simp only [step, hrun, bind, Except.bind]
      · simp [successful_inserts, successful_removals, hsz]
      · simp [insert_calls, hsz]
    · have hfail : newt = none ∨ value_ok = false := by
        cases newt with
        | none => exact Or.inl rfl
        | some a =>
          right
          cases value_ok with
          | false => rfl
          | true => exact absurd ⟨a, rfl, rfl⟩ hok
      have hrun := q_insert_tail_fail h q s newt value_ok hadm hfail
      refine ⟨⟨h, some q, some false⟩, q, l, ?_, rfl, hl, ?_, ?_⟩
      · simp only [step, hrun, bind, Except.bind]
      · simp [successful_inserts, successful_removals]
      · simp [insert_calls]
  | remove_head sp bufsize =>
    have hle : q.size ≤ INT_MAX := by
      simp only [insert_calls] at hmax
      push_cast at hmax
      omega
    cases l with
    | nil =>
      have hs0 : q.size = 0 := by simpa using hl.2.1
      have hrun : q_remove_head h (some q) sp bufsize = .ok ⟨h, some q, sp, false⟩ := by
        unfold q_remove_head
        simp only [q_size, hs0, if_true]
      refine ⟨⟨h, some q, some false⟩, q, [], ?_, rfl, hl, ?_, ?_⟩
      · simp only [step, hrun, bind, Except.bind]
      · simp [successful_inserts, successful_removals]
      · simp [insert_calls]
    | cons a t =>
      obtain ⟨e, sp', he, hrun, hl', _, _⟩ := q_remove_head_spec h q a t sp bufsize hl hadm
      obtain ⟨hl'', hw⟩ := hl' hle
      refine ⟨⟨free h a, some { q with head := e.next, size := int_wrap (q.size - 1) },
        some true⟩, { q with head := e.next, size := int_wrap (q.size - 1) }, t, ?_, rfl,
        hl'', ?_, ?_⟩
      · simp only [step, hrun, bind, Except.bind]
      · show int_wrap (q.size - 1) = _
        rw [hw]
        simp [successful_inserts, successful_removals]
      · show int_wrap (q.size - 1) ≤ _
        rw [hw]
        simp [insert_calls]
  | reverse => exact absurd hb (by simp [Op.basic])
  | sort => exact absurd hb (by simp [Op.basic])

theorem q_remove_head_true_of_size (h : Heap) (qs : queue_t) (sp : Option Bytes) (n : Nat)
    (hs : qs.size ≠ 0) (r : Removal) (hr : q_remove_head h (some qs) sp n = .ok r) :
    r.ret = true := by
  unfold q_remove_head at hr
  simp only [q_size, hs, if_false] at hr
  cases hh : qs.head with
  | none => rw [hh] at hr; cases hr
  | some a =>
    rw [hh] at hr
    cases he : h a with
    | none => simp only [he] at hr; cases hr
    | some e =>
      simp only [he] at hr
      cases sp with
      | none => cases hr; rfl
      | some buf =>
        cases hc1 : strncpy buf e.value (size_sub n 1) with
        | error f => simp only [hc1] at hr; cases hr
        | ok b1 =>
          cases hc2 : store_byte b1 (size_sub n 1) 0 with
          | error f =>
            simp only [hc1] at hr
            have hr' : (do
                let b2 ← store_byte b1 (size_sub n 1) 0
                Except.ok (⟨free h a, some ⟨e.next, qs.tail, int_wrap (qs.size - 1)⟩, some b2,
                  true⟩ : Removal)) = .ok r := hr
            rw [hc2] at hr'
            cases hr'
          | ok b2 =>
            simp only [hc1] at hr
            have hr' : (do
                let b2 ← store_byte b1 (size_sub n 1) 0
                Except.ok (⟨free h a, some ⟨e.next, qs.tail, int_wrap (qs.size - 1)⟩, some b2,
                  true⟩ : Removal)) = .ok r := hr
            rw [hc2] at hr'
            cases hr'
            rfl

theorem q_remove_head_empty (h : Heap) (qs : queue_t) (sp : Option Bytes) (n : Nat)
    (hs : qs.size = 0) : q_remove_head h (some qs) sp n = .ok ⟨h, some qs, sp, false⟩ := by
  unfold q_remove_head
  simp only [q_size, hs, if_true]

theorem successful_inserts_cons (op : Op) (ops : List Op) (ret : Option Bool)
    (rets : List (Option Bool)) :
    successful_inserts (op :: ops) (ret :: rets) =
      successful_inserts [op] [ret] + successful_inserts ops rets := by
  cases op <;> cases ret with
  | none => simp [successful_inserts]
  | some b => cases b <;> simp [successful_inserts, Nat.add_comm]

theorem successful_removals_cons (op : Op) (ops : List Op) (ret : Option Bool)
    (rets : List (Option Bool)) :
    successful_removals (op :: ops) (ret :: rets) =
      successful_removals [op] [ret] + successful_removals ops rets := by
  cases op <;> cases ret with
  | none => simp [successful_removals]
  | some b => cases b <;> simp [successful_removals, Nat.add_comm]

theorem insert_calls_cons (op : Op) (ops : List Op) :
    insert_calls (op :: ops) = insert_calls [op] + insert_calls ops := by
  cases op <;> simp [insert_calls, Nat.add_comm]

theorem run_basic_spec (fuel : Nat) : ∀ (ops : List Op) (h : Heap) (q : queue_t)
    (l : List Addr), Linked h q l → (∀ op ∈ ops, op.basic = true) →
    Admissible fuel h (some q) ops → q.size + (insert_calls ops : Int) ≤ INT_MAX →
    ∃ r q' l', run fuel h (some q) ops = .ok r ∧ r.q = some q' ∧ Linked r.heap q' l' ∧
      q'.size = q.size + (successful_inserts ops r.ret : Int) -
        (successful_removals ops r.ret : Int) := by
  intro ops
  induction ops with
  | nil =>
    intro h q l hl _ _ _
    exact ⟨⟨h, some q, []⟩, q, l, rfl, rfl, hl, by simp [successful_inserts, successful_removals]⟩
  | cons op ops ih =>
    intro h q l hl hb hadm hmax
    rw [insert_calls_cons] at hmax
    push_cast at hmax
    obtain ⟨r1, q1, l1, hstep, hq1, hl1, hsz1, hle1⟩ :=
      step_basic_spec fuel h q l op hl hadm.1 (hb op (List.mem_cons_self _ _))
        (by have : (0 : Int) ≤ (insert_calls ops : Int) := Int.natCast_nonneg _
            omega)
    have hadm' : Admissible fuel r1.heap (some q1) ops := by
      have h2 := hadm.2
      rw [hstep] at h2
      rw [← hq1]
      exact h2
    obtain ⟨r2, q2, l2, hrun, hq2, hl2, hsz2⟩ := ih r1.heap q1 l1 hl1
      (fun o ho => hb o (List.mem_cons_of_mem _ ho)) hadm' (by omega)
    refine ⟨⟨r2.heap, r2.q, r1.ret :: r2.ret⟩, q2, l2, ?_, hq2, hl2, ?_⟩
    · rw [← hq1] at hrun
      simp only [run, hstep, bind, Except.bind, hrun]
    · show q2.size = q.size + (successful_inserts (op :: ops) (r1.ret :: r2.ret) : Int) -
        (successful_removals (op :: ops) (r1.ret :: r2.ret) : Int)
      rw [successful_inserts_cons, successful_removals_cons, hsz2, hsz1]
      push_cast
      ring

/-! ## Overflow of the count -/

theorem int_wrap_add (x y : Int) : int_wrap (int_wrap x + y) = int_wrap (x + y) := by
  unfold int_wrap
  omega

theorem int_wrap_idem (x : Int) : int_wrap (int_wrap x) = int_wrap x := by
  unfold int_wrap
  omega

theorem q_insert_head_ok (h : Heap) (q : queue_t) (s : Bytes) (a : Addr) :
    q_insert_head h (some q) s (some a) true =
      .ok ⟨Function.update (Function.update h a (some { value := [], next := none })) a
          (some { value := cstr s ++ [0], next := q.head }),
        some ⟨some a, if q.size = 0 then some a else q.tail, int_wrap (q.size + 1)⟩, true⟩ := by
  simp only [q_insert_head, strncpy_copy, bind, Except.bind, q_size, Bool.true_eq_false,
    if_false]
  by_cases h0 : q.size = 0 <;> simp [h0]

theorem many_inserts_run (fuel : Nat) : ∀ (n k : Nat) (h : Heap) (q : queue_t),
    (∀ j, k ≤ j → h j = none) → int_wrap q.size = q.size →
    Admissible fuel h (some q) (many_inserts k n) ∧
    ∃ r q', run fuel h (some q) (many_inserts k n) = .ok r ∧ r.q = some q' ∧
      q'.size = int_wrap (q.size + (n : Int)) ∧ r.ret = List.replicate n (some true) := by
  intro n
  induction n with
  | zero =>
    intro k h q _ hq
    exact ⟨trivial, ⟨h, some q, []⟩, q, rfl, rfl, by simpa using hq.symm, rfl⟩
  | succ n ih =>
    intro k h q hfree hq
    obtain ⟨h1, h1def⟩ : ∃ h1 : Heap, h1 = Function.update
        (Function.update h k (some { value := [], next := none })) k
        (some { value := cstr [97] ++ [0], next := q.head }) := ⟨_, rfl⟩
    obtain ⟨q1, q1def⟩ : ∃ q1 : queue_t, q1 =
        ⟨some k, if q.size = 0 then some k else q.tail, int_wrap (q.size + 1)⟩ := ⟨_, rfl⟩
    have hstep : step fuel h (some q) (.insert_head [97] (some k) true) =
        .ok ⟨h1, some q1, some true⟩ := by
      simp only [step, q_insert_head_ok, bind, Except.bind, h1def, q1def]
    have hfree1 : ∀ j, k + 1 ≤ j → h1 j = none := by
      intro j hj
      have hjk : j ≠ k := by omega
      rw [h1def, Function.update_noteq hjk, Function.update_noteq hjk]
      exact hfree j (by omega)
    have hq1 : int_wrap q1.size = q1.size := by
      rw [q1def]; exact int_wrap_idem _
    obtain ⟨hadm, r, q', hrun, hrq, hsz, hret⟩ := ih (k + 1) h1 q1 hfree1 hq1
    have hsz1 : q1.size = int_wrap (q.size + 1) := by rw [q1def]
    refine ⟨⟨hfree k (Nat.le_refl k), ?_⟩, ⟨r.heap, r.q, some true :: r.ret⟩, q', ?_, hrq,
      ?_, ?_⟩
    · show (match step fuel h (some q) (.insert_head [97] (some k) true) with
        | .ok r => Admissible fuel r.heap r.q (many_inserts (k + 1) n)
        | .error _ => True)
      rw [hstep]
      exact hadm
    · show run fuel h (some q) (.insert_head [97] (some k) true :: many_inserts (k + 1) n) = _
      simp only [run, hstep, bind, Except.bind, hrun]
    · rw [hsz, hsz1, int_wrap_add]
      push_cast
      congr 1
      ring
    · show some true :: r.ret = List.replicate (n + 1) (some true)
      rw [hret]
      rfl

theorem successful_inserts_many (n k : Nat) :
    successful_inserts (many_inserts k n) (List.replicate n (some true)) = n := by
  induction n generalizing k with
  | zero => rfl
  | succ n ih =>
    show successful_inserts (.insert_head [97] (some k) true :: many_inserts (k + 1) n)
      (some true :: List.replicate n (some true)) = n + 1
    simp only [successful_inserts, ih]

theorem successful_removals_many (n k : Nat) :
    successful_removals (many_inserts k n) (List.replicate n (some true)) = 0 := by
  induction n generalizing k with
  | zero => rfl
  | succ n ih =>
    show successful_removals (.insert_head [97] (some k) true :: many_inserts (k + 1) n)
      (some true :: List.replicate n (some true)) = 0
    simp only [successful_removals, ih]

theorem Chain.last_next_none {h : Heap} {p : Ptr} {l0 : List Addr} {t : Addr}
    (hc : Chain h p (l0 ++ [t])) : ∃ e, h t = some e ∧ e.next = none := by
  obtain ⟨mid, _, _, e, he, hn⟩ := Seg.append.mp hc
  exact ⟨e, he, hn⟩

theorem Chain.next_eq {h h' : Heap} {p p' : Ptr} {l : List Addr}
    (hc : Chain h p l) (hc' : Chain h' p' l) : p = p' := by
  cases l with
  | nil =>
    have h1 : p = none := hc
    have h2 : p' = none := hc'
    rw [h1, h2]
  | cons a t => rw [hc.1, hc'.1]

theorem Chain.heap_eq {h h' : Heap} {p : Ptr} {l : List Addr} (hc : Chain h p l)
    (hc' : Chain h' p l) (hv : SameValues h h') : ∀ x ∈ l, h' x = h x := by
  induction l generalizing p with
  | nil => intro x hx; simp at hx
  | cons a t ih =>
    obtain ⟨_, e, he, ht⟩ := hc
    obtain ⟨_, e', he', ht'⟩ := hc'
    have hn : e.next = e'.next := Chain.next_eq ht ht'
    have hval : e'.value = e.value := by
      have := hv a
      rw [he, he'] at this
      exact Option.some.inj this
    have hee : e' = e := by
      cases e; cases e'
      simp only [list_ele_t.mk.injEq]
      exact ⟨hval, hn.symm⟩
    intro x hx
    rcases List.mem_cons.mp hx with rfl | hx
    · rw [he, he', hee]
    · rw [← hn] at ht'
      exact ih ht ht' x hx

theorem sorted_raw_of_value {h : Heap} {l : List Addr}
    (hs : Sorted (l.map (value_at h))) : Sorted (l.map (raw_at h)) := by
  unfold Sorted at hs ⊢
  rw [List.pairwise_map] at hs ⊢
  refine hs.imp ?_
  intro a b hab
  rw [value_at_eq_cstr_raw, value_at_eq_cstr_raw, strcmp_cstr_left, strcmp_cstr_right] at hab
  exact hab

theorem q_insert_head_true (h : Heap) (q : queue_t) (s : Bytes) (a : Addr) (r : Outcome Bool)
    (hr : q_insert_head h (some q) s (some a) true = .ok r) : r.ret = true := by
  simp only [q_insert_head, strncpy_copy, bind, Except.bind, Bool.true_eq_false,
    if_false] at hr
  cases hr
  rfl

theorem q_insert_tail_true (h : Heap) (q : queue_t) (s : Bytes) (a : Addr) (r : Outcome Bool)
    (hr : q_insert_tail h (some q) s (some a) true = .ok r) : r.ret = true := by
  simp only [q_insert_tail, strncpy_copy, bind, Except.bind, Bool.true_eq_false,
    if_false] at hr
  split_ifs at hr with h0
  · cases hr
    rfl
  · cases hs : set_next (Function.update
        (Function.update h a (some { value := [], next := none })) a
        (some { value := cstr s ++ [0], next := none })) q.tail (some a) with
    | error f => rw [hs] at hr; cases hr
    | ok h3 => rw [hs] at hr; cases hr; rfl

theorem Linked.head_tail_ne_none {h : Heap} {q : queue_t} {l : List Addr}
    (hl : Linked h q l) (hne : l ≠ []) : q.head ≠ none ∧ q.tail ≠ none := by
  cases l with
  | nil => exact absurd rfl hne
  | cons a t =>
    refine ⟨by rw [hl.1.1]; simp, ?_⟩
    rw [hl.2.2 hne]
    exact getLast?_cons_ne_none a t

theorem WellFormed.invariant {h : Heap} {q : queue_t} {l : List Addr}
    (hw : WellFormed h q l) :
    (q.size = 0 ↔ q.head = none) ∧ (q.head = none ↔ q.tail = none) := by
  refine ⟨size_zero_iff_head_none hw.1.1 hw.1.2.1, ?_⟩
  by_cases hl : l = []
  · subst hl
    have hh : q.head = none := hw.1.1
    have ht : q.tail = none := hw.2.1 rfl
    rw [hh, ht]
  · obtain ⟨hh, ht⟩ := Linked.head_tail_ne_none hw.1 hl
    exact ⟨fun e => absurd e hh, fun e => absurd e ht⟩

theorem invariant_of_nonempty {q : queue_t} (h1 : q.size ≠ 0) (h2 : q.head ≠ none)
    (h3 : q.tail ≠ none) :
    (q.size = 0 ↔ q.head = none) ∧ (q.head = none ↔ q.tail = none) :=
  ⟨⟨fun e => absurd e h1, fun e => absurd e h2⟩, ⟨fun e => absurd e h2, fun e => absurd e h3⟩⟩

theorem int_wrap_succ_ne_zero {x : Int} (h0 : 0 ≤ x) (h1 : x ≤ INT_MAX) :
    int_wrap (x + 1) ≠ 0 := by
  unfold int_wrap
  unfold INT_MAX at h1
  omega

/-! ## The claims -/

/-- C1: after `q_sort` on a queue that is linked (as every well-formed queue is), of two
elements or more and of fewer as well, the call returns and the values read from head to
tail are in non-decreasing `strcmp` order. -/
theorem q_sort_sorted (fuel : Nat) (h : Heap) (q : queue_t) (l : List Addr)
    (hl : Linked h q l) (hfuel : l.length < fuel) :
    ∃ r q' l', q_sort fuel h (some q) = .ok r ∧ r.q = some q' ∧ Chain r.heap q'.head l' ∧
      l'.length = l.length ∧ Sorted (l'.map (value_at r.heap)) := by
  obtain ⟨h', hd, l', hrun, hc, hp, hso, _, hsv⟩ := q_sort_spec fuel h q l hl hfuel
  exact ⟨_, _, l', hrun, rfl, hc, hp.length_eq, sorted_value_of_raw hsv hso⟩

/-- Witness of C1 on the queue "b", "a", "c". -/
theorem q_sort_sorted_witness :
    Linked heap_bac ⟨some 0, some 2, 3⟩ [0, 1, 2] ∧
    ∃ r q' l', q_sort 4 heap_bac (some ⟨some 0, some 2, 3⟩) = .ok r ∧ r.q = some q' ∧
      Chain r.heap q'.head l' ∧ l'.length = [0, 1, 2].length ∧
      Sorted (l'.map (value_at r.heap)) :=
  ⟨heap_bac_linked,
    q_sort_sorted 4 heap_bac ⟨some 0, some 2, 3⟩ [0, 1, 2] heap_bac_linked (by decide)⟩

/-- C2: `q_sort` on a linked queue returns, and the elements reachable from head
afterwards are a permutation of those before, with the same values: every address holds
an element after the call exactly when it did before, with the same value, elements
outside the queue are untouched and the count is the same. -/
theorem q_sort_perm (fuel : Nat) (h : Heap) (q : queue_t) (l : List Addr)
    (hl : Linked h q l) (hfuel : l.length < fuel) :
    ∃ r q' l', q_sort fuel h (some q) = .ok r ∧ r.q = some q' ∧ Chain r.heap q'.head l' ∧
      l'.Perm l ∧ (l'.map (value_at r.heap)).Perm (l.map (value_at h)) ∧
      SameValues h r.heap ∧ (∀ x, x ∉ l → r.heap x = h x) ∧ q'.size = q.size := by
  obtain ⟨h', hd, l', hrun, hc, hp, _, hfr, hsv⟩ := q_sort_spec fuel h q l hl hfuel
  refine ⟨_, _, l', hrun, rfl, hc, hp, ?_, hsv, hfr, rfl⟩
  show (l'.map (value_at h')).Perm (l.map (value_at h))
  rw [hsv.value_eq]
  exact hp.map _

/-- Witness of C2 on the queue "b", "a", "c". -/
theorem q_sort_perm_witness :
    Linked heap_bac ⟨some 0, some 2, 3⟩ [0, 1, 2] ∧
    ∃ r q' l', q_sort 4 heap_bac (some ⟨some 0, some 2, 3⟩) = .ok r ∧ r.q = some q' ∧
      Chain r.heap q'.head l' ∧ l'.Perm [0, 1, 2] ∧
      (l'.map (value_at r.heap)).Perm ([0, 1, 2].map (value_at heap_bac)) ∧
      SameValues heap_bac r.heap ∧ (∀ x, x ∉ [0, 1, 2] → r.heap x = heap_bac x) ∧
      q'.size = 3 :=
  ⟨heap_bac_linked,
    q_sort_perm 4 heap_bac ⟨some 0, some 2, 3⟩ [0, 1, 2] heap_bac_linked (by decide)⟩

/-- C3 fails on the code: a queue is created, "b" and "a" are inserted at the tail, the
queue is sorted and "c" is inserted at the tail. Every call succeeds and the count is 3,
but only "a" and "c" are reachable from head: `q_sort` left `tail` on the element "a",
which is now the first one, and `q_insert_tail` linked "c" after it, cutting "b" off. -/
theorem q_insert_tail_after_sort :
    (run 4 empty_heap (q_new true)
      [.insert_tail [98] (some 0) true, .insert_tail [97] (some 1) true, .sort,
        .insert_tail [99] (some 2) true]).toOption.map
      (fun r => (r.ret, r.q.map (fun q => q.size), queue_values 4 r.heap r.q)) =
    some ([some true, some true, none, some true], some 3, [[97], [99]]) := by
  decide

/-- C4 fails on the code: after "b" and "a" are inserted at the tail and the queue is
sorted, the chain from head is the element at 1 ("a") followed by the element at 0 ("b"),
while `tail` is still the element at 1, whose `next` is the element at 0 and not `NULL`. -/
theorem q_sort_leaves_tail :
    (run 4 empty_heap (q_new true)
      [.insert_tail [98] (some 0) true, .insert_tail [97] (some 1) true, .sort]).toOption.map
      (fun r => (r.q, walk 4 r.heap (r.q.bind (fun q => q.head)),
        (r.q.bind (fun q => q.tail)).bind (fun t => (r.heap t).map (fun e => e.next)))) =
    some (some ⟨some 1, some 1, 2⟩, [1, 0], some (some 0)) := by
  decide

/-- Counterexample to C5: removing the only element of a well-formed one-element queue
leaves the count at 0 and head at `NULL`, but `tail` still holds the address of the
element removed. -/
theorem q_remove_head_keeps_tail :
    WellFormed heap_a ⟨some 0, some 0, 1⟩ [0] ∧
    ∃ r q', q_remove_head heap_a (some ⟨some 0, some 0, 1⟩) none 0 = .ok r ∧ r.ret = true ∧
      r.q = some q' ∧ q'.size = 0 ∧ q'.head = none ∧ q'.tail ≠ none :=
  ⟨⟨heap_a_linked, fun hne => absurd hne (by simp), by decide⟩,
    ⟨free heap_a 0, some ⟨none, some 0, 0⟩, none, true⟩, ⟨none, some 0, 0⟩, rfl, rfl, rfl, rfl,
    rfl, by simp⟩

/-- C5 as amended: every public operation, called on a well-formed queue with admissible
arguments (`malloc` returns fresh addresses; a buffer given to `q_remove_head` has the
capacity announced, which is at least 1), returns and leaves the count at 0 exactly when
head is `NULL`. It leaves head `NULL` exactly when `tail` is `NULL` as well, unless it is
a `q_remove_head` on a queue of one element: then head is `NULL` and the count is 0
afterwards, while `tail` is what it was, the address of the element removed. -/
theorem step_keeps_invariant (fuel : Nat) (h : Heap) (q : queue_t) (l : List Addr)
    (op : Op) (hw : WellFormed h q l) (hadm : op.admissible h) (hfuel : l.length < fuel) :
    ∃ r q', step fuel h (some q) op = .ok r ∧ r.q = some q' ∧
      (q'.size = 0 ↔ q'.head = none) ∧
      ((∀ sp n, op = .remove_head sp n → l.length ≠ 1) →
        (q'.head = none ↔ q'.tail = none)) ∧
      (∀ sp n, op = .remove_head sp n → l.length = 1 →
        q'.head = none ∧ q'.size = 0 ∧ q'.tail = q.tail ∧ q'.tail ≠ none) := by
  have hinv := WellFormed.invariant hw
  obtain ⟨hl, hte, hmax⟩ := hw
  have h0 : (0 : Int) ≤ q.size := by rw [hl.2.1]; omega
  cases op with
  | insert_head s newh value_ok =>
    by_cases hok : ∃ a, newh = some a ∧ value_ok = true
    · obtain ⟨a, hn, hv⟩ := hok
      subst hn; subst hv
      obtain ⟨h', q', hrun, hc, ht, _, _, hsz⟩ := q_insert_head_spec h q l s a hl hadm
      have hi := invariant_of_nonempty (q := q')
        (by rw [hsz]; exact int_wrap_succ_ne_zero h0 hmax) (by rw [hc.1]; simp)
        (by rw [ht]; exact getLast?_cons_ne_none a l)
      refine ⟨⟨h', some q', some true⟩, q', ?_, rfl, hi.1, fun _ => hi.2, ?_⟩
      · simp only [step, hrun, bind, Except.bind]
      · intro sp n hop; exact absurd hop (by simp)
    · have hfail : newh = none ∨ value_ok = false := by
        cases newh with
        | none => exact Or.inl rfl
        | some a =>
          right
          cases value_ok with
          | false => rfl
          | true => exact absurd ⟨a, rfl, rfl⟩ hok
      have hrun := q_insert_head_fail h q s newh value_ok hadm hfail
      refine ⟨⟨h, some q, some false⟩, q, ?_, rfl, hinv.1, fun _ => hinv.2, ?_⟩
      · simp only [step, hrun, bind, Except.bind]
      · intro sp n hop; exact absurd hop (by simp)
  | insert_tail s newt value_ok =>
    by_cases hok : ∃ a, newt = some a ∧ value_ok = true
    · obtain ⟨a, hn, hv⟩ := hok
      subst hn; subst hv
      obtain ⟨h', q', hrun, hc, ht, _, _, _, hsz⟩ := q_insert_tail_spec h q l s a hl hadm
      have hhead : q'.head ≠ none := by
        intro hn
        rw [hn] at hc
        exact absurd (Chain.of_none hc) (by simp)
      have hi := invariant_of_nonempty (q := q')
        (by rw [hsz]; exact int_wrap_succ_ne_zero h0 hmax) hhead (by rw [ht]; simp)
      refine ⟨⟨h', some q', some true⟩, q', ?_, rfl, hi.1, fun _ => hi.2, ?_⟩
      · simp only [step, hrun, bind, Except.bind]
      · intro sp n hop; exact absurd hop (by simp)
    · have hfail : newt = none ∨ value_ok = false := by
        cases newt with
        | none => exact Or.inl rfl
        | some a =>
          right
          cases value_ok with
          | false => rfl
          | true => exact absurd ⟨a, rfl, rfl⟩ hok
      have hrun := q_insert_tail_fail h q s newt value_ok hadm hfail
      refine ⟨⟨h, some q, some false⟩, q, ?_, rfl, hinv.1, fun _ => hinv.2, ?_⟩
      · simp only [step, hrun, bind, Except.bind]
      · intro sp n hop; exact absurd hop (by simp)
  | remove_head sp bufsize =>
    cases l with
    | nil =>
      have hs0 : q.size = 0 := by simpa using hl.2.1
      have hrun := q_remove_head_empty h q sp bufsize hs0
      refine ⟨⟨h, some q, some false⟩, q, ?_, rfl, hinv.1, fun _ => hinv.2, ?_⟩
      · simp only [step, hrun, bind, Except.bind]
      · intro _ _ _ hlen; simp at hlen
    | cons a t =>
      obtain ⟨e, sp', he, hrun, hl', _, _⟩ := q_remove_head_spec h q a t sp bufsize hl hadm
      obtain ⟨hl'', hwrap⟩ := hl' hmax
      refine ⟨⟨free h a, some { q with head := e.next, size := int_wrap (q.size - 1) },
        some true⟩, { q with head := e.next, size := int_wrap (q.size - 1) }, ?_, rfl,
        size_zero_iff_head_none hl''.1 hl''.2.1, ?_, ?_⟩
      · simp only [step, hrun, bind, Except.bind]
      · intro hnot
        have hne : t ≠ [] := by
          intro ht
          subst ht
          exact hnot sp bufsize rfl rfl
        obtain ⟨hh, htl⟩ := Linked.head_tail_ne_none hl'' hne
        exact ⟨fun e => absurd e hh, fun e => absurd e htl⟩
      · intro _ _ _ hlen
        have ht : t = [] := by
          simp only [List.length_cons] at hlen
          exact List.length_eq_zero.mp (by omega)
        subst ht
        have hn : e.next = none := hl''.1
        refine ⟨hn, hl''.2.1, rfl, ?_⟩
        show q.tail ≠ none
        rw [hl.2.2 (by simp)]
        exact getLast?_cons_ne_none a []
  | reverse =>
    obtain ⟨h', q', hrun, hl', _, _, _, _, hsmall⟩ := q_reverse_spec fuel h q l hl hfuel
    refine ⟨⟨h', some q', none⟩, q', ?_, rfl, size_zero_iff_head_none hl'.1 hl'.2.1,
      fun _ => ?_, ?_⟩
    · simp only [step, hrun, bind, Except.bind]
    · by_cases hne : l = []
      · subst hne
        obtain ⟨_, hq⟩ := hsmall (by simp)
        rw [hq]
        exact hinv.2
      · obtain ⟨hh, htl⟩ := Linked.head_tail_ne_none hl'
          (fun e => hne (List.reverse_eq_nil_iff.mp e))
        exact ⟨fun e => absurd e hh, fun e => absurd e htl⟩
    · intro sp n hop; exact absurd hop (by simp)
  | sort =>
    obtain ⟨h', hd, l', hrun, hc, hp, _, _, _⟩ := q_sort_spec fuel h q l hl hfuel
    have hsz : ({ q with head := hd } : queue_t).size = (l'.length : Int) := by
      show q.size = (l'.length : Int)
      rw [hp.length_eq]; exact hl.2.1
    refine ⟨⟨h', some { q with head := hd }, none⟩, { q with head := hd }, ?_, rfl,
      size_zero_iff_head_none hc hsz, fun _ => ?_, ?_⟩
    · simp only [step, hrun, bind, Except.bind]
    · show hd = none ↔ q.tail = none
      by_cases hne : l = []
      · subst hne
        have hl'nil : l' = [] := List.Perm.eq_nil hp
        subst hl'nil
        have hhd : hd = none := hc
        rw [hhd, hte rfl]
      · have hl'ne : l' ≠ [] := by
          intro e
          rw [e] at hp
          exact hne (List.Perm.eq_nil hp.symm)
        have hhd : hd ≠ none := by
          intro e
          rw [e] at hc
          exact hl'ne (Chain.of_none hc)
        exact ⟨fun e => absurd e hhd, fun e => absurd e (Linked.head_tail_ne_none hl hne).2⟩
    · intro sp n hop; exact absurd hop (by simp)

/-- Witness of C5 as amended: removing "b" from the queue "b", "a", "c", with a buffer of
capacity 3. -/
theorem step_keeps_invariant_witness :
    WellFormed heap_bac ⟨some 0, some 2, 3⟩ [0, 1, 2] ∧
    ∃ r q', step 4 heap_bac (some ⟨some 0, some 2, 3⟩) (.remove_head (some [1, 1, 1]) 3) =
        .ok r ∧ r.q = some q' ∧
      (q'.size = 0 ↔ q'.head = none) ∧
      ((∀ sp n, Op.remove_head (some [1, 1, 1]) 3 = .remove_head sp n →
        [0, 1, 2].length ≠ 1) → (q'.head = none ↔ q'.tail = none)) ∧
      (∀ sp n, Op.remove_head (some [1, 1, 1]) 3 = .remove_head sp n →
        [0, 1, 2].length = 1 →
        q'.head = none ∧ q'.size = 0 ∧ q'.tail = some 2 ∧ q'.tail ≠ none) :=
  ⟨⟨heap_bac_linked, fun hne => absurd hne (by simp), by decide⟩,
    step_keeps_invariant 4 heap_bac ⟨some 0, some 2, 3⟩ [0, 1, 2]
      (.remove_head (some [1, 1, 1]) 3)
      ⟨heap_bac_linked, fun hne => absurd hne (by simp), by decide⟩
      ⟨by decide, by decide, by decide⟩ (by decide)⟩

/-- C6 fails on the code: with a buffer of five bytes and `bufsize` 0 on the queue "b",
"a", "c", `bufsize - 1` wraps around to `SIZE_MAX`, `strncpy` is asked to write that many
bytes and the run stops on a write outside the buffer, where the claim has no write at all
and a return of `true`. -/
theorem q_remove_head_zero_capacity :
    fault_of (q_remove_head heap_bac (some ⟨some 0, some 2, 3⟩) (some [1, 2, 3, 4, 5]) 0) =
      some .out_of_bounds := by
  decide

/-- C7: on a linked non-empty queue whose head element holds `e`, with a buffer of at least
`n` bytes and `1 ≤ n`, `q_remove_head` returns `true` and leaves in the buffer, whose size
is unchanged, the string made of the first `min (strlen v) (n - 1)` bytes of the value: the
whole value when `n` exceeds its length. -/
theorem q_remove_head_copies (h : Heap) (q : queue_t) (a : Addr) (l : List Addr)
    (e : list_ele_t) (buf : Bytes) (n : Nat) (hl : Linked h q (a :: l)) (he : h a = some e)
    (h1 : 1 ≤ n) (h2 : n ≤ buf.length) (h3 : n < SIZE_MOD) :
    ∃ r b, q_remove_head h (some q) (some buf) n = .ok r ∧ r.ret = true ∧ r.sp = some b ∧
      b.length = buf.length ∧ cstr b = (cstr e.value).take (n - 1) ∧
      strlen b = min (strlen e.value) (n - 1) ∧ (strlen e.value < n → cstr b = cstr e.value) := by
  obtain ⟨e', sp', he', hrun, _, hcopy, _⟩ :=
    q_remove_head_spec h q a l (some buf) n hl ⟨h1, h2, h3⟩
  rw [he] at he'
  have hee : e = e' := Option.some.inj he'
  subst hee
  obtain ⟨b, hsp, hcs, hlen⟩ := hcopy buf rfl
  refine ⟨_, b, hrun, rfl, hsp, hlen, hcs, ?_, fun hlt => ?_⟩
  · unfold strlen
    rw [hcs, List.length_take, Nat.min_comm]
  · rw [hcs]
    exact List.take_of_length_le (by unfold strlen at hlt; omega)

/-- Witness of C7: the value "hello" and a buffer of capacity 3. -/
theorem q_remove_head_copies_witness :
    Linked heap_hello ⟨some 0, some 0, 1⟩ [0] ∧
    ∃ r b, q_remove_head heap_hello (some ⟨some 0, some 0, 1⟩) (some [1, 1, 1]) 3 = .ok r ∧
      r.ret = true ∧ r.sp = some b ∧ b.length = [1, 1, 1].length ∧
      cstr b = (cstr [104, 101, 108, 108, 111, 0]).take (3 - 1) ∧
      strlen b = min (strlen [104, 101, 108, 108, 111, 0]) (3 - 1) ∧
      (strlen [104, 101, 108, 108, 111, 0] < 3 → cstr b = cstr [104, 101, 108, 108, 111, 0]) :=
  ⟨heap_hello_linked,
    q_remove_head_copies heap_hello ⟨some 0, some 0, 1⟩ 0 [] ⟨[104, 101, 108, 108, 111, 0], none⟩
      [1, 1, 1] 3 heap_hello_linked rfl (by decide) (by decide) (by decide)⟩

/-- What holds of `q_remove_head` on a linked queue whose elements are `a :: l` and whose
count is an `int`, with or without a buffer, when the buffer has the capacity announced
and this capacity is at least 1: it returns `true`, the element at `a` is released, the
queue is linked on `l` with the values it had, and the count is one less. -/
theorem q_remove_head_advances (h : Heap) (q : queue_t) (a : Addr) (l : List Addr)
    (sp : Option Bytes) (bufsize : Nat) (hl : Linked h q (a :: l)) (hmax : q.size ≤ INT_MAX)
    (hb : BufferOK sp bufsize) :
    ∃ r q', q_remove_head h (some q) sp bufsize = .ok r ∧ r.ret = true ∧ r.q = some q' ∧
      Linked r.heap q' l ∧ r.heap a = none ∧ (∀ x, x ≠ a → r.heap x = h x) ∧
      l.map (value_at r.heap) = ((a :: l).map (value_at h)).tail ∧
      q'.size = q.size - 1 := by
  obtain ⟨e, sp', he, hrun, hl', _, _⟩ := q_remove_head_spec h q a l sp bufsize hl hb
  obtain ⟨hl'', hwrap⟩ := hl' hmax
  have hal : a ∉ l := (List.nodup_cons.mp (Chain.nodup hl.1)).1
  refine ⟨_, _, hrun, rfl, rfl, hl'', Function.update_same _ _ _,
    fun x hx => Function.update_noteq hx _ _, ?_, hwrap⟩
  show l.map (value_at (free h a)) = l.map (value_at h)
  refine List.map_congr_left (fun x hx => ?_)
  have hxa : x ≠ a := fun e => hal (e ▸ hx)
  unfold value_at free
  rw [Function.update_noteq hxa]

/-- C8 fails on the code: on the well-formed queue "a", with a buffer of three bytes and
`bufsize` 0, `q_remove_head` does not return `true`: it does not return at all, the
run stops in `strncpy` before the head is unlinked and the count decremented. -/
theorem q_remove_head_zero_capacity_no_return :
    WellFormed heap_a ⟨some 0, some 0, 1⟩ [0] ∧
    (q_remove_head heap_a (some ⟨some 0, some 0, 1⟩) (some [7, 7, 7]) 0).toOption.map
      (fun r => (r.ret, r.q)) = none :=
  ⟨⟨heap_a_linked, fun hne => absurd hne (by simp), by decide⟩, by decide⟩

/-- C9: `q_remove_head` returns `false` exactly when the queue pointer is `NULL` or the
count is 0, and then the heap, the queue structure and the buffer are what they were. -/
theorem q_remove_head_false_iff (h : Heap) (q : Option queue_t) (sp : Option Bytes)
    (n : Nat) :
    ((∃ r, q_remove_head h q sp n = .ok r ∧ r.ret = false) ↔
      (q = none ∨ ∃ qs, q = some qs ∧ qs.size = 0)) ∧
    (∀ r, q_remove_head h q sp n = .ok r ∧ r.ret = false →
      r.heap = h ∧ r.q = q ∧ r.sp = sp) := by
  cases q with
  | none =>
    refine ⟨⟨fun _ => Or.inl rfl, fun _ => ⟨⟨h, none, sp, false⟩, rfl, rfl⟩⟩, ?_⟩
    rintro r ⟨hr, _⟩
    have hr' : (Except.ok ⟨h, none, sp, false⟩ : Except Fault Removal) = .ok r := hr
    cases hr'
    exact ⟨rfl, rfl, rfl⟩
  | some qs =>
    by_cases hs : qs.size = 0
    · have hrun := q_remove_head_empty h qs sp n hs
      refine ⟨⟨fun _ => Or.inr ⟨qs, rfl, hs⟩, fun _ => ⟨_, hrun, rfl⟩⟩, ?_⟩
      rintro r ⟨hr, _⟩
      rw [hrun] at hr
      cases hr
      exact ⟨rfl, rfl, rfl⟩
    · refine ⟨⟨?_, ?_⟩, ?_⟩
      · rintro ⟨r, hr, hret⟩
        rw [q_remove_head_true_of_size h qs sp n hs r hr] at hret
        exact absurd hret (by simp)
      · rintro (hq | ⟨qs', hq, hs'⟩)
        · exact absurd hq (by simp)
        · have : qs = qs' := Option.some.inj hq
          subst this
          exact absurd hs' hs
      · rintro r ⟨hr, hret⟩
        rw [q_remove_head_true_of_size h qs sp n hs r hr] at hret
        exact absurd hret (by simp)

/-- Counterexample to C10. First, an insert followed by a removal with a buffer and
`bufsize` 0 does not return: there is no size afterwards. Second, after `2 ^ 31` calls of
`q_insert_head` that all return `true`, made with fresh addresses, `q_size` is
`-2147483648` while the number of successful inserts minus the number of successful
removals is `2147483648`: the count is an `int` and has wrapped around. -/
theorem q_size_counts_fails :
    fault_of (run 0 empty_heap (q_new true)
      [.insert_head [97] (some 0) true, .remove_head (some [1, 2, 3, 4, 5]) 0]) =
      some .out_of_bounds ∧
    Admissible 0 empty_heap (q_new true) (many_inserts 0 2147483648) ∧
    ∃ r, run 0 empty_heap (q_new true) (many_inserts 0 2147483648) = .ok r ∧
      q_size r.q = -2147483648 ∧
      (successful_inserts (many_inserts 0 2147483648) r.ret : Int) -
        (successful_removals (many_inserts 0 2147483648) r.ret : Int) = 2147483648 := by
  refine ⟨by decide, ?_⟩
  obtain ⟨hadm, r, q', hrun, hq, hsz, hret⟩ :=
    many_inserts_run 0 2147483648 0 empty_heap ⟨none, none, 0⟩ (fun _ _ => rfl) (by decide)
  refine ⟨hadm, r, hrun, ?_, ?_⟩
  · have hval : q'.size = -2147483648 := by
      rw [hsz]
      show int_wrap (0 + ((2147483648 : Nat) : Int)) = -2147483648
      unfold int_wrap
      norm_num
    rw [hq]
    show (if q'.size = 0 then 0 else q'.size) = -2147483648
    rw [hval]
    norm_num
  · rw [hret, successful_inserts_many, successful_removals_many]
    norm_num

/-- C10 as amended: for every sequence of calls of `q_insert_head`, `q_insert_tail` and
`q_remove_head` on a queue that `q_new` has just created, made with admissible arguments
(`malloc` returns fresh addresses; a buffer given to `q_remove_head` has the capacity
announced, which is at least 1) and holding no more than `INT_MAX` calls of the two
inserts, the run returns and `q_size` is then the number of inserts that returned `true`
minus the number of removals that returned `true`. -/
theorem q_size_counts (fuel : Nat) (h0 : Heap) (ops : List Op)
    (hb : ∀ op ∈ ops, op.basic = true) (hadm : Admissible fuel h0 (q_new true) ops)
    (hmax : (insert_calls ops : Int) ≤ INT_MAX) :
    ∃ r, run fuel h0 (q_new true) ops = .ok r ∧
      q_size r.q = (successful_inserts ops r.ret : Int) - (successful_removals ops r.ret : Int) := by
  have hl0 : Linked h0 ⟨none, none, 0⟩ [] := ⟨rfl, rfl, fun hne => absurd rfl hne⟩
  obtain ⟨r, q', l', hrun, hq, hl', hsz⟩ :=
    run_basic_spec fuel ops h0 ⟨none, none, 0⟩ [] hl0 hb hadm
      (by show (0 : Int) + (insert_calls ops : Int) ≤ INT_MAX
          omega)
  refine ⟨r, hrun, ?_⟩
  rw [hq, q_size_of_linked hl', ← hl'.2.1, hsz]
  simp

/-- Witness of C10 as amended: an insert at the head, an insert at the tail for which
`malloc` fails, another insert at the tail, two removals (the second one with a buffer)
and a removal on the empty queue. -/
theorem q_size_counts_witness :
    ∃ r, run 0 empty_heap (q_new true)
        [.insert_head [97] (some 0) true, .insert_tail [98] none true,
          .insert_tail [99] (some 1) true, .remove_head none 0,
          .remove_head (some [0, 0]) 2, .remove_head none 0] = .ok r ∧
      q_size r.q =
        (successful_inserts [.insert_head [97] (some 0) true, .insert_tail [98] none true,
          .insert_tail [99] (some 1) true, .remove_head none 0,
          .remove_head (some [0, 0]) 2, .remove_head none 0] r.ret : Int) -
        (successful_removals [.insert_head [97] (some 0) true, .insert_tail [98] none true,
          .insert_tail [99] (some 1) true, .remove_head none 0,
          .remove_head (some [0, 0]) 2, .remove_head none 0] r.ret : Int) :=
  q_size_counts 0 empty_heap _ (by decide)
    ⟨rfl, trivial, rfl, trivial, ⟨by decide, by decide, by decide⟩, trivial, trivial⟩
    (by decide)

/-- C11: on a linked queue (as every well-formed queue is) of two elements or more,
`q_reverse` returns; the chain from head is then the reverse of the chain before, the
former tail is the head, the former head is the tail and its `next` is `NULL`, the values
read from head to tail are the former ones in reverse order, every element keeps its
value, elements outside the queue are untouched and the count is the same. -/
theorem q_reverse_reverses (fuel : Nat) (h : Heap) (q : queue_t) (l : List Addr)
    (hl : Linked h q l) (h2 : 2 ≤ l.length) (hfuel : l.length < fuel) :
    ∃ r q', q_reverse fuel h (some q) = .ok r ∧ r.q = some q' ∧
      Linked r.heap q' l.reverse ∧ q'.head = q.tail ∧ q'.tail = q.head ∧
      (∃ t e, q'.tail = some t ∧ r.heap t = some e ∧ e.next = none) ∧
      l.reverse.map (value_at r.heap) = (l.map (value_at h)).reverse ∧
      SameValues h r.heap ∧ (∀ x, x ∉ l → r.heap x = h x) ∧ q'.size = q.size := by
  obtain ⟨h', q', hrun, hl', hfr, hsv, hsz, hswap, _⟩ := q_reverse_spec fuel h q l hl hfuel
  have hne : l.reverse ≠ [] := by
    intro he
    have := congrArg List.length he
    simp only [List.length_reverse, List.length_nil] at this
    omega
  obtain ⟨l0, t, hlt⟩ := exists_append_last hne
  have htail : q'.tail = some t := by
    rw [hl'.2.2 hne, hlt]; exact List.getLast?_concat l0
  obtain ⟨e, he, hn⟩ : ∃ e, h' t = some e ∧ e.next = none := by
    have hc := hl'.1
    rw [hlt] at hc
    exact Chain.last_next_none hc
  refine ⟨⟨h', some q', ()⟩, q', hrun, rfl, hl', (hswap h2).1, (hswap h2).2,
    ⟨t, e, htail, he, hn⟩, ?_, hsv, hfr, hsz⟩
  show l.reverse.map (value_at h') = (l.map (value_at h)).reverse
  rw [hsv.value_eq, List.map_reverse]

/-- Witness of C11 on the queue "b", "a", "c". -/
theorem q_reverse_reverses_witness :
    Linked heap_bac ⟨some 0, some 2, 3⟩ [0, 1, 2] ∧
    ∃ r q', q_reverse 4 heap_bac (some ⟨some 0, some 2, 3⟩) = .ok r ∧ r.q = some q' ∧
      Linked r.heap q' [0, 1, 2].reverse ∧ q'.head = some 2 ∧ q'.tail = some 0 ∧
      (∃ t e, q'.tail = some t ∧ r.heap t = some e ∧ e.next = none) ∧
      [0, 1, 2].reverse.map (value_at r.heap) = ([0, 1, 2].map (value_at heap_bac)).reverse ∧
      SameValues heap_bac r.heap ∧ (∀ x, x ∉ [0, 1, 2] → r.heap x = heap_bac x) ∧
      q'.size = 3 :=
  ⟨heap_bac_linked,
    q_reverse_reverses 4 heap_bac ⟨some 0, some 2, 3⟩ [0, 1, 2] heap_bac_linked (by decide)
      (by decide)⟩

/-- C12: on a linked queue (as every well-formed queue is, empty or not), two calls of
`q_reverse` in a row both return and leave the state of the start: the same heap, hence
the same values and `next` pointers, and the same head, tail and count. -/
theorem q_reverse_twice (fuel : Nat) (h : Heap) (q : queue_t) (l : List Addr)
    (hl : Linked h q l) (hfuel : l.length < fuel) :
    ∃ r1 r2, q_reverse fuel h (some q) = .ok r1 ∧ q_reverse fuel r1.heap r1.q = .ok r2 ∧
      r2.heap = h ∧ r2.q = some q := by
  obtain ⟨h1, q1, hrun1, hl1, hfr1, hsv1, hsz1, hswap1, hsmall1⟩ :=
    q_reverse_spec fuel h q l hl hfuel
  obtain ⟨h2, q2, hrun2, hl2, hfr2, hsv2, hsz2, hswap2, hsmall2⟩ :=
    q_reverse_spec fuel h1 q1 l.reverse hl1 (by rw [List.length_reverse]; exact hfuel)
  rw [List.reverse_reverse] at hl2
  refine ⟨⟨h1, some q1, ()⟩, ⟨h2, some q2, ()⟩, hrun1, hrun2, ?_, ?_⟩
  · show h2 = h
    by_cases hlen : l.length ≤ 1
    · obtain ⟨e1, _⟩ := hsmall1 hlen
      obtain ⟨e2, _⟩ := hsmall2 (by rw [List.length_reverse]; exact hlen)
      rw [e2, e1]
    · have hq2 : q2.head = q.head := by
        rw [(hswap2 (by rw [List.length_reverse]; omega)).1, (hswap1 (by omega)).2]
      have hc2 : Chain h2 q.head l := by rw [← hq2]; exact hl2.1
      funext x
      by_cases hx : x ∈ l
      · exact Chain.heap_eq hl.1 hc2 (hsv1.trans hsv2) x hx
      · rw [hfr2 x (fun hm => hx (List.mem_reverse.mp hm)), hfr1 x hx]
  · show some q2 = some q
    by_cases hlen : l.length ≤ 1
    · obtain ⟨_, e1⟩ := hsmall1 hlen
      obtain ⟨_, e2⟩ := hsmall2 (by rw [List.length_reverse]; exact hlen)
      rw [e2, e1]
    · have hh : q2.head = q.head := by
        rw [(hswap2 (by rw [List.length_reverse]; omega)).1, (hswap1 (by omega)).2]
      have ht : q2.tail = q.tail := by
        rw [(hswap2 (by rw [List.length_reverse]; omega)).2, (hswap1 (by omega)).1]
      have hs : q2.size = q.size := by rw [hsz2, hsz1]
      cases q2; cases q
      simp only [queue_t.mk.injEq, Option.some.injEq]
      exact ⟨hh, ht, hs⟩

/-- Witness of C12 on the queue "b", "a", "c". -/
theorem q_reverse_twice_witness :
    Linked heap_bac ⟨some 0, some 2, 3⟩ [0, 1, 2] ∧
    ∃ r1 r2, q_reverse 4 heap_bac (some ⟨some 0, some 2, 3⟩) = .ok r1 ∧
      q_reverse 4 r1.heap r1.q = .ok r2 ∧ r2.heap = heap_bac ∧
      r2.q = some ⟨some 0, some 2, 3⟩ :=
  ⟨heap_bac_linked,
    q_reverse_twice 4 heap_bac ⟨some 0, some 2, 3⟩ [0, 1, 2] heap_bac_linked (by decide)⟩

/-- C13: on a queue whose count is 0 or 1, `q_sort` and `q_reverse` return at once, with
whatever fuel, and leave the heap and the queue structure as they were. -/
theorem small_queue_unchanged (fuel : Nat) (h : Heap) (q : queue_t)
    (hs : q.size = 0 ∨ q.size = 1) :
    q_sort fuel h (some q) = .ok ⟨h, some q, ()⟩ ∧
    q_reverse fuel h (some q) = .ok ⟨h, some q, ()⟩ := by
  have hc : q_size (some q) = 0 ∨ q_size (some q) = 1 := by
    show (if q.size = 0 then 0 else q.size) = 0 ∨ (if q.size = 0 then 0 else q.size) = 1
    rcases hs with h0 | h1
    · left; rw [if_pos h0]
    · right; rw [if_neg (by omega)]; exact h1
  constructor
  · simp only [q_sort, hc, if_true]
  · simp only [q_reverse, hc, if_true]

/-- Witness of C13 on the queue "a", with no fuel at all. -/
theorem small_queue_unchanged_witness :
    q_sort 0 heap_a (some ⟨some 0, some 0, 1⟩) = .ok ⟨heap_a, some ⟨some 0, some 0, 1⟩, ()⟩ ∧
    q_reverse 0 heap_a (some ⟨some 0, some 0, 1⟩) =
      .ok ⟨heap_a, some ⟨some 0, some 0, 1⟩, ()⟩ :=
  small_queue_unchanged 0 heap_a ⟨some 0, some 0, 1⟩ (Or.inr rfl)

/-- C14: with a `NULL` queue pointer, `q_insert_head`, `q_insert_tail` and `q_remove_head`
return `false`, `q_size` returns 0, and `q_reverse`, `q_sort` and `q_free` return; the
heap and the buffer are what they were in every case. -/
theorem null_queue_unchanged (fuel : Nat) (h : Heap) (s : Bytes) (p : Ptr) (value_ok : Bool)
    (sp : Option Bytes) (n : Nat) :
    q_insert_head h none s p value_ok = .ok ⟨h, none, false⟩ ∧
    q_insert_tail h none s p value_ok = .ok ⟨h, none, false⟩ ∧
    q_remove_head h none sp n = .ok ⟨h, none, sp, false⟩ ∧
    q_size none = 0 ∧
    q_reverse fuel h none = .ok ⟨h, none, ()⟩ ∧
    q_sort fuel h none = .ok ⟨h, none, ()⟩ ∧
    q_free fuel h none = .ok h :=
  ⟨rfl, rfl, rfl, rfl, rfl, rfl, rfl⟩

/-- C15: when `malloc` fails for the element or for its string, `q_insert_head` and
`q_insert_tail` return `false` and leave the heap and the queue structure exactly as they
were; and on a queue that is present, a call that returns `false` is one in which one of
the two allocations failed. -/
theorem q_insert_fails_iff_malloc (h : Heap) (q : queue_t) (s : Bytes) (p : Ptr)
    (value_ok : Bool) (hf : Fresh h p) :
    ((p = none ∨ value_ok = false) →
      q_insert_head h (some q) s p value_ok = .ok ⟨h, some q, false⟩ ∧
      q_insert_tail h (some q) s p value_ok = .ok ⟨h, some q, false⟩) ∧
    (∀ r, q_insert_head h (some q) s p value_ok = .ok r → r.ret = false →
      p = none ∨ value_ok = false) ∧
    (∀ r, q_insert_tail h (some q) s p value_ok = .ok r → r.ret = false →
      p = none ∨ value_ok = false) := by
  refine ⟨fun hfail => ⟨q_insert_head_fail h q s p value_ok hf hfail,
    q_insert_tail_fail h q s p value_ok hf hfail⟩, ?_, ?_⟩
  · intro r hr hret
    cases p with
    | none => exact Or.inl rfl
    | some a =>
      cases value_ok with
      | false => exact Or.inr rfl
      | true =>
        rw [q_insert_head_true h q s a r hr] at hret
        exact absurd hret (by simp)
  · intro r hr hret
    cases p with
    | none => exact Or.inl rfl
    | some a =>
      cases value_ok with
      | false => exact Or.inr rfl
      | true =>
        rw [q_insert_tail_true h q s a r hr] at hret
        exact absurd hret (by simp)

/-- Witness of C15: on the queue "b", "a", "c", `malloc` gives the address 5 for the
element and fails for the string. -/
theorem q_insert_fails_iff_malloc_witness :
    Fresh heap_bac (some 5) ∧
    (((some 5 : Ptr) = none ∨ false = false) →
      q_insert_head heap_bac (some ⟨some 0, some 2, 3⟩) [100] (some 5) false =
        .ok ⟨heap_bac, some ⟨some 0, some 2, 3⟩, false⟩ ∧
      q_insert_tail heap_bac (some ⟨some 0, some 2, 3⟩) [100] (some 5) false =
        .ok ⟨heap_bac, some ⟨some 0, some 2, 3⟩, false⟩) ∧
    (∀ r, q_insert_head heap_bac (some ⟨some 0, some 2, 3⟩) [100] (some 5) false = .ok r →
      r.ret = false → (some 5 : Ptr) = none ∨ false = false) ∧
    (∀ r, q_insert_tail heap_bac (some ⟨some 0, some 2, 3⟩) [100] (some 5) false = .ok r →
      r.ret = false → (some 5 : Ptr) = none ∨ false = false) :=
  ⟨rfl, q_insert_fails_iff_malloc heap_bac ⟨some 0, some 2, 3⟩ [100] (some 5) false rfl⟩

/-- C16: on an empty queue, just created or emptied by removals (head is `NULL` and the
count is 0, whatever `tail` holds), a successful `q_insert_head` of `s` followed by
`q_remove_head` with a buffer whose capacity exceeds the length of `s` returns `true` both
times, leaves the string `s` in the buffer and the count at 0. -/
theorem q_insert_head_remove_head (h : Heap) (q : queue_t) (s : Bytes) (a : Addr)
    (buf : Bytes) (n : Nat) (hl : Linked h q []) (ha : Fresh h (some a))
    (h1 : strlen s < n) (h2 : n ≤ buf.length) (h3 : n < SIZE_MOD) :
    ∃ r1 r2 b, q_insert_head h (some q) s (some a) true = .ok r1 ∧ r1.ret = true ∧
      q_remove_head r1.heap r1.q (some buf) n = .ok r2 ∧ r2.ret = true ∧
      r2.sp = some b ∧ cstr b = cstr s ∧ q_size r2.q = 0 := by
  have hs0 : q.size = 0 := by simpa using hl.2.1
  obtain ⟨h', q', hrun1, hl', _, hval, hsz⟩ :=
    q_insert_head_linked h q [] s a hl ha (by rw [hs0]; decide)
  obtain ⟨e, sp', he, hrun2, hl2, hcopy, _⟩ :=
    q_remove_head_spec h' q' a [] (some buf) n hl' ⟨by omega, h2, h3⟩
  obtain ⟨hl2', _⟩ := hl2 (by rw [hsz, hs0]; decide)
  obtain ⟨b, hsp, hcs, _⟩ := hcopy buf rfl
  refine ⟨⟨h', some q', true⟩, _, b, hrun1, rfl, hrun2, rfl, hsp, ?_, ?_⟩
  · rw [hcs, ← value_at_of_some he, hval]
    exact List.take_of_length_le (by unfold strlen at h1; omega)
  · exact q_size_of_linked hl2'

/-- Witness of C16: the string "hi" on a queue just created, with a buffer of capacity 3. -/
theorem q_insert_head_remove_head_witness :
    Linked empty_heap ⟨none, none, 0⟩ [] ∧ Fresh empty_heap (some 0) ∧
    ∃ r1 r2 b, q_insert_head empty_heap (some ⟨none, none, 0⟩) [104, 105] (some 0) true =
        .ok r1 ∧ r1.ret = true ∧
      q_remove_head r1.heap r1.q (some [1, 1, 1, 1]) 3 = .ok r2 ∧ r2.ret = true ∧
      r2.sp = some b ∧ cstr b = cstr [104, 105] ∧ q_size r2.q = 0 :=
  ⟨⟨rfl, rfl, fun hne => absurd rfl hne⟩, rfl,
    q_insert_head_remove_head empty_heap ⟨none, none, 0⟩ [104, 105] 0 [1, 1, 1, 1] 3
      ⟨rfl, rfl, fun hne => absurd rfl hne⟩ rfl (by decide) (by decide) (by decide)⟩

/-- C17: on a chain `L` of `n ≥ 1` elements that ends with `NULL`, `split_queue` returns;
the front chain is made of the first `(n + 1) / 2` elements of `L`, that is half of them
rounded up, the back chain of the `n / 2` others, both end with `NULL`, front followed
by back is `L`, and for `n ≥ 2` neither is empty. No value changes and no element outside
`L` is touched. -/
theorem split_queue_halves (fuel : Nat) (h : Heap) (p : Ptr) (L : List Addr)
    (hc : Chain h p L) (hn : 1 ≤ L.length) (hfuel : L.length ≤ fuel) :
    ∃ h' front back, split_queue fuel h p = .ok (h', front, back) ∧
      Chain h' front (L.take ((L.length + 1) / 2)) ∧
      Chain h' back (L.drop ((L.length + 1) / 2)) ∧
      (L.take ((L.length + 1) / 2)).length = (L.length + 1) / 2 ∧
      (L.drop ((L.length + 1) / 2)).length = L.length / 2 ∧
      L.take ((L.length + 1) / 2) ++ L.drop ((L.length + 1) / 2) = L ∧
      (2 ≤ L.length → front ≠ none ∧ back ≠ none) ∧
      SameValues h h' ∧ (∀ x, x ∉ L → h' x = h x) := by
  cases L with
  | nil => simp at hn
  | cons a l =>
    have hp : p = some a := hc.1
    subst hp
    simp only [List.length_cons] at hfuel
    obtain ⟨h', back, lf, lb, hrun, happ, hlf, hfront, hback, hfr, hsv⟩ :=
      split_queue_spec fuel h a l hc (by omega)
    have hk : ((a :: l).length + 1) / 2 = lf.length := by
      rw [hlf]; simp only [List.length_cons]; omega
    have htake : (a :: l).take (((a :: l).length + 1) / 2) = lf := by
      rw [hk, happ]; exact List.take_left lf lb
    have hdrop : (a :: l).drop (((a :: l).length + 1) / 2) = lb := by
      rw [hk, happ]; exact List.drop_left lf lb
    have hlen : lf.length + lb.length = l.length + 1 := by
      have := congrArg List.length happ
      simp only [List.length_cons, List.length_append] at this
      omega
    rw [htake, hdrop]
    refine ⟨h', some a, back, hrun, hfront, hback, hk.symm, ?_, happ.symm, ?_, hsv, hfr⟩
    · simp only [List.length_cons]; omega
    · intro h2
      simp only [List.length_cons] at h2
      refine ⟨by simp, fun hb => ?_⟩
      rw [hb] at hback
      have := Chain.of_none hback
      rw [this] at hlen
      simp only [List.length_nil] at hlen
      omega

/-- Witness of C17 on the chain "b", "a", "c". -/
theorem split_queue_halves_witness :
    Chain heap_bac (some 0) [0, 1, 2] ∧
    ∃ h' front back, split_queue 3 heap_bac (some 0) = .ok (h', front, back) ∧
      Chain h' front ([0, 1, 2].take (([0, 1, 2].length + 1) / 2)) ∧
      Chain h' back ([0, 1, 2].drop (([0, 1, 2].length + 1) / 2)) ∧
      ([0, 1, 2].take (([0, 1, 2].length + 1) / 2)).length = ([0, 1, 2].length + 1) / 2 ∧
      ([0, 1, 2].drop (([0, 1, 2].length + 1) / 2)).length = [0, 1, 2].length / 2 ∧
      [0, 1, 2].take (([0, 1, 2].length + 1) / 2) ++
        [0, 1, 2].drop (([0, 1, 2].length + 1) / 2) = [0, 1, 2] ∧
      (2 ≤ [0, 1, 2].length → front ≠ none ∧ back ≠ none) ∧
      SameValues heap_bac h' ∧ (∀ x, x ∉ [0, 1, 2] → h' x = heap_bac x) :=
  ⟨heap_bac_linked.1,
    split_queue_halves 3 heap_bac (some 0) [0, 1, 2] heap_bac_linked.1 (by decide) (by decide)⟩

/-- C18: for two chains that share no element and are each in non-decreasing `strcmp`
order (either may be empty), `merge` returns one chain ending with `NULL` that is in
non-decreasing order and is made of exactly the elements of both, each once, with the
values they had; no element outside the two chains is touched. -/
theorem merge_sorted_chains (fuel : Nat) (h : Heap) (la lb : List Addr) (a b : Ptr)
    (ha : Chain h a la) (hb : Chain h b lb) (hdisj : ∀ x ∈ la, x ∉ lb)
    (hsa : Sorted (la.map (value_at h))) (hsb : Sorted (lb.map (value_at h)))
    (hfuel : la.length + lb.length ≤ fuel) :
    ∃ h' r l', merge fuel h a b = .ok (h', r) ∧ Chain h' r l' ∧
      Sorted (l'.map (value_at h')) ∧ l'.Perm (la ++ lb) ∧
      l'.length = la.length + lb.length ∧ SameValues h h' ∧
      (∀ x, x ∉ la → x ∉ lb → h' x = h x) := by
  obtain ⟨h', r, hrun, hc, hfr, hsv⟩ := merge_spec fuel h la lb a b ha hb hdisj hfuel
  have hp := merge_list_perm (raw_at h) la lb
  refine ⟨h', r, _, hrun, hc, ?_, hp, ?_, hsv, hfr⟩
  · exact sorted_value_of_raw hsv
      (merge_list_sorted _ la lb (sorted_raw_of_value hsa) (sorted_raw_of_value hsb))
  · rw [hp.length_eq, List.length_append]

/-- Witness of C18: merging the chain "a", "c" with the chain "b". -/
theorem merge_sorted_chains_witness :
    Chain heap_ac_b (some 0) [0, 1] ∧ Chain heap_ac_b (some 2) [2] ∧
    ∃ h' r l', merge 3 heap_ac_b (some 0) (some 2) = .ok (h', r) ∧ Chain h' r l' ∧
      Sorted (l'.map (value_at h')) ∧ l'.Perm ([0, 1] ++ [2]) ∧
      l'.length = [0, 1].length + [2].length ∧ SameValues heap_ac_b h' ∧
      (∀ x, x ∉ [0, 1] → x ∉ [2] → h' x = heap_ac_b x) :=
  ⟨⟨rfl, ⟨[97, 0], some 1⟩, rfl, rfl, ⟨[99, 0], none⟩, rfl, rfl⟩,
    ⟨rfl, ⟨[98, 0], none⟩, rfl, rfl⟩,
    merge_sorted_chains 3 heap_ac_b [0, 1] [2] (some 0) (some 2)
      ⟨rfl, ⟨[97, 0], some 1⟩, rfl, rfl, ⟨[99, 0], none⟩, rfl, rfl⟩
      ⟨rfl, ⟨[98, 0], none⟩, rfl, rfl⟩ (by decide)
      (by unfold Sorted; decide) (by unfold Sorted; decide) (by decide)⟩

/-- C19: `q_sort` is not stable. When the heads of the two chains given to `merge` compare
equal, the chain returned starts with the head of the second one. And on the queue made by
inserting "x" at the tail twice, at the addresses 0 and then 1, the chain from head is 0, 1
before `q_sort` and 1, 0 after it: the two equal elements have changed places. -/
theorem q_sort_not_stable :
    (∀ (fuel : Nat) (h : Heap) (x y : Addr) (ex ey : list_ele_t) (r : Heap × Ptr),
      h x = some ex → h y = some ey → strcmp ex.value ey.value = 0 →
      merge fuel h (some x) (some y) = .ok r → r.2 = some y) ∧
    (run 3 empty_heap (q_new true)
      [.insert_tail [120] (some 0) true, .insert_tail [120] (some 1) true]).toOption.map
      (fun r => (queue_values 3 r.heap r.q, walk 3 r.heap (r.q.bind (fun q => q.head)))) =
      some ([[120], [120]], [0, 1]) ∧
    (run 3 empty_heap (q_new true)
      [.insert_tail [120] (some 0) true, .insert_tail [120] (some 1) true,
        .sort]).toOption.map
      (fun r => (queue_values 3 r.heap r.q, walk 3 r.heap (r.q.bind (fun q => q.head)))) =
      some ([[120], [120]], [1, 0]) := by
  refine ⟨?_, by decide, by decide⟩
  intro fuel h x y ex ey r hx hy heq hr
  have hnlt : ¬ strcmp ex.value ey.value < 0 := by omega
  simp only [merge, deref_some hx, deref_some hy, bind, Except.bind, hnlt, if_false] at hr
  cases hm : merge_loop fuel h (some x) ey.next (some y) with
  | error f => rw [hm] at hr; cases hr
  | ok h1 => rw [hm] at hr; cases hr; rfl

/-- C20: on a chain of `n` elements that ends with `NULL`, `merge_sort` returns as soon as
the fuel exceeds `n`. A chain of 0 or 1 element is returned as it is, with the heap
unchanged. For `n ≥ 2` the call of `split_queue` that `merge_sort` makes returns two
chains that are both shorter than `n`, and their lengths add up to `n`. The loop of
`split_queue` and the loop of `merge` end as well: `split_queue` returns on the chain and
`merge` returns on any two chains sharing no element of `fuel` elements or fewer. -/
theorem merge_sort_terminates (fuel : Nat) (h : Heap) (p : Ptr) (l : List Addr)
    (hc : Chain h p l) (hfuel : l.length < fuel) :
    (∃ r, merge_sort fuel h p = .ok r) ∧
    (l.length ≤ 1 → merge_sort fuel h p = .ok (h, p)) ∧
    (2 ≤ l.length → ∃ h1 front back lf lb,
      split_queue (fuel - 1) h p = .ok (h1, front, back) ∧
      Chain h1 front lf ∧ Chain h1 back lb ∧ lf.length < l.length ∧ lb.length < l.length ∧
      lf.length + lb.length = l.length) ∧
    (∀ (h2 : Heap) (a b : Ptr) (la lb : List Addr), Chain h2 a la → Chain h2 b lb →
      (∀ x ∈ la, x ∉ lb) → la.length + lb.length ≤ fuel → ∃ r, merge fuel h2 a b = .ok r) := by
  refine ⟨?_, ?_, ?_, ?_⟩
  · obtain ⟨h', r, _, hrun, _⟩ := merge_sort_spec fuel h p l hc hfuel
    exact ⟨(h', r), hrun⟩
  · intro hlen
    obtain ⟨f, hf⟩ : ∃ f, fuel = f + 1 := ⟨fuel - 1, by omega⟩
    subst hf
    match l, hc, hlen with
    | [], hc, _ =>
      have hp : p = none := hc
      subst hp
      simp only [merge_sort]
    | [a], hc, _ =>
      obtain ⟨hp, e, he, hn⟩ := hc
      have hn' : e.next = none := hn
      subst hp
      simp only [merge_sort, deref_some he, bind, Except.bind, hn']
  · intro h2
    cases l with
    | nil => simp at h2
    | cons a t =>
      have hp : p = some a := hc.1
      subst hp
      simp only [List.length_cons] at h2 hfuel
      obtain ⟨h1, back, lf, lb, hrun, happ, hlf, hfront, hback, _, _⟩ :=
        split_queue_spec (fuel - 1) h a t hc (by omega)
      have hlen : lf.length + lb.length = t.length + 1 := by
        have := congrArg List.length happ
        simp only [List.length_cons, List.length_append] at this
        omega
      refine ⟨h1, some a, back, lf, lb, hrun, hfront, hback, ?_, ?_, ?_⟩
      · simp only [List.length_cons]; omega
      · simp only [List.length_cons]; omega
      · simp only [List.length_cons]; omega
  · intro h2 a b la lb ha hb hdisj hlen
    obtain ⟨h', r, hrun, _⟩ := merge_spec fuel h2 la lb a b ha hb hdisj hlen
    exact ⟨(h', r), hrun⟩

/-- Witness of C20 on the chain "b", "a", "c". -/
theorem merge_sort_terminates_witness :
    Chain heap_bac (some 0) [0, 1, 2] ∧
    (∃ r, merge_sort 4 heap_bac (some 0) = .ok r) ∧
    ([0, 1, 2].length ≤ 1 → merge_sort 4 heap_bac (some 0) = .ok (heap_bac, some 0)) ∧
    (2 ≤ [0, 1, 2].length → ∃ h1 front back lf lb,
      split_queue (4 - 1) heap_bac (some 0) = .ok (h1, front, back) ∧
      Chain h1 front lf ∧ Chain h1 back lb ∧ lf.length < [0, 1, 2].length ∧
      lb.length < [0, 1, 2].length ∧ lf.length + lb.length = [0, 1, 2].length) ∧
    (∀ (h2 : Heap) (a b : Ptr) (la lb : List Addr), Chain h2 a la → Chain h2 b lb →
      (∀ x ∈ la, x ∉ lb) → la.length + lb.length ≤ 4 → ∃ r, merge 4 h2 a b = .ok r) :=
  ⟨heap_bac_linked.1,
    merge_sort_terminates 4 heap_bac (some 0) [0, 1, 2] heap_bac_linked.1 (by decide)⟩

end Queue
